import Mathlib

/-!
# swaggermarkdown: a shallow embedding of `markdown.go`

The converter reads a decoded Swagger document and writes a Markdown report.
The embedding keeps the source's data types and method names.

* Go strings are `String`; the document is decoded from JSON, so they hold
  valid UTF-8 and splitting on the one-byte separator `/` is splitting on the
  character `/`.
* A Go map is an association list (`GoMap`): `m[k]` is `List.lookup`. Go does
  not fix the order of `range` over a map and draws it anew at every `range`
  statement that is executed, so every writing method takes a `RangeOrder`,
  which gives the order of each executed `range` (`RangeOrder.listed` is the
  run in which every `range` takes the order of the list).
* A value of type `interface{}` produced by `encoding/json` is a `JSON` tree;
  `JSON.null` is the nil interface.
* Writing to the file is recorded as the list of strings handed to
  `file.WriteString`, in order (`Run.out`); a run ends normally, with a Go
  panic, or because the fuel of the recursion ran out (`Status`).
-/

namespace Godoc

/-! ## Data model -/

/-- A value decoded by `encoding/json` into `interface{}`. Numbers keep their
literal text: the program never inspects them. -/
inductive JSON where
  | null
  | bool (b : Bool)
  | num (raw : String)
  | str (v : String)
  | arr (xs : List JSON)
  | obj (kvs : List (String × JSON))

/-- A Go `map[string]α`, listed in iteration order. -/
abbrev GoMap (α : Type) := List (String × α)

/-- The Go struct `Items`: only `$ref` is decoded. -/
structure Items where
  Ref : String
deriving DecidableEq, Repr

mutual
/-- The Go struct `Property`. -/
inductive Property where
  | mk (Type_ Format Description Ref : String) (Items : Option Items)
       (Properties : JSON) (AllOf : List AllOfItem)
/-- The Go struct `AllOfItem`; `Properties` is `none` for a nil map. -/
inductive AllOfItem where
  | mk (Ref Type_ : String) (Properties : Option (List (String × Property)))
end

/-- Field `Type` of `Property`. -/
def Property.Type_ : Property → String
  | .mk t _ _ _ _ _ _ => t

/-- Field `Format` of `Property`. -/
def Property.Format : Property → String
  | .mk _ f _ _ _ _ _ => f

/-- Field `Description` of `Property`. -/
def Property.Description : Property → String
  | .mk _ _ d _ _ _ _ => d

/-- Field `Ref` of `Property`. -/
def Property.Ref : Property → String
  | .mk _ _ _ r _ _ _ => r

/-- Field `Items` of `Property` (`none` is the nil pointer). -/
def Property.Items : Property → Option Items
  | .mk _ _ _ _ i _ _ => i

/-- Field `Properties` of `Property` (`JSON.null` is the nil interface). -/
def Property.Properties : Property → JSON
  | .mk _ _ _ _ _ p _ => p

/-- Field `AllOf` of `Property`. -/
def Property.AllOf : Property → List AllOfItem
  | .mk _ _ _ _ _ _ a => a

/-- Field `Ref` of `AllOfItem`. -/
def AllOfItem.Ref : AllOfItem → String
  | .mk r _ _ => r

/-- Field `Type` of `AllOfItem`. -/
def AllOfItem.Type_ : AllOfItem → String
  | .mk _ t _ => t

/-- Field `Properties` of `AllOfItem`. -/
def AllOfItem.Properties : AllOfItem → Option (GoMap Property)
  | .mk _ _ p => p

/-- The Go struct `Definition`. -/
structure Definition where
  Type_ : String
  Properties : GoMap Property
  Required : List String
  AllOf : List AllOfItem

/-- The anonymous struct of `Schema.AllOf`. -/
structure SchemaAllOf where
  Ref : String

/-- The Go struct `Schema`. -/
structure Schema where
  Ref : String
  Type_ : String
  Items : Option Items
  AllOf : List SchemaAllOf

/-- The Go struct `Parameter`. -/
structure Parameter where
  Name : String
  In : String
  Description : String
  Required : Bool
  Type_ : String
  Schema : Schema

/-- The Go struct `ResponseValue`. -/
structure ResponseValue where
  Description : String
  Schema : Schema

/-- The Go struct `Operation`. -/
structure Operation where
  Summary : String
  Description : String
  Parameters : List Parameter
  Responses : GoMap ResponseValue
  Tags : List String

/-- The Go struct `SwaggerMarkdown` (the mutex guards assignment only). -/
structure SwaggerMarkdown where
  CustomOrder : GoMap Int
  IgnoredFields : GoMap Bool

/-- The local struct `pathItem` of `writePaths`. -/
structure pathItem where
  path : String
  method : String
  detail : JSON

/-- A property with only a type, as decoded from `{"type": t}`. -/
def Property.ofType (t : String) : Property :=
  .mk t "" "" "" none .null []

/-! ## Runs: what was written, and how the run ended -/

/-- How a run ended. -/
inductive Status where
  | ok
  | panic
  | outOfFuel
deriving DecidableEq, Repr

/-- The strings written so far and the way the run ended. -/
structure Run where
  out : List String
  status : Status
deriving DecidableEq, Repr

/-- One call of `file.WriteString`. -/
def Run.write (t : String) : Run := ⟨[t], .ok⟩

/-- Nothing is written. -/
def Run.skip : Run := ⟨[], .ok⟩

/-- A Go run-time panic. -/
def Run.panic : Run := ⟨[], .panic⟩

/-- The recursion budget of the model is used up. -/
def Run.outOfFuel : Run := ⟨[], .outOfFuel⟩

/-- Sequential composition: `b` runs only if `a` ended normally. -/
def Run.seq (a b : Run) : Run :=
  match a.status with
  | .ok => ⟨a.out ++ b.out, b.status⟩
  | _ => a

/-- A `for ... range` loop whose body writes. -/
def Run.forEach {α : Type} (body : α → Run) : List α → Run
  | [] => Run.skip
  | x :: xs => Run.seq (body x) (Run.forEach body xs)

/-- Continue with a value that a panicking computation may fail to give. -/
def Run.withValue {α : Type} (v : Option α) (k : α → Run) : Run :=
  match v with
  | none => Run.panic
  | some a => k a

/-- A loop whose body is told the number of the iteration, counted from `i`. -/
def Run.forEachFrom {α : Type} (body : Nat → α → Run) : Nat → List α → Run
  | _, [] => Run.skip
  | i, x :: xs => Run.seq (body i x) (Run.forEachFrom body (i + 1) xs)

/-! ## The order of `range` over a map -/

/-- The order taken by each executed `range` over a map. The place of a `range`
in the execution is a path of numbers (the numbers of the nested parts of the
execution that lead to it); the map comes as it is listed. -/
structure RangeOrder where
  order : List Nat → (α : Type) → GoMap α → GoMap α

/-- The orders taken inside the part of the execution numbered `i`. -/
def RangeOrder.sub (ρ : RangeOrder) (i : Nat) : RangeOrder :=
  ⟨fun path => ρ.order (i :: path)⟩

/-- The entries of `m` in the order of the `range` that is executed here. -/
def RangeOrder.range (ρ : RangeOrder) {α : Type} (m : GoMap α) : GoMap α :=
  ρ.order [] α m

/-- Every `range` enumerates each entry of its map exactly once. -/
def RangeOrder.Valid (ρ : RangeOrder) : Prop :=
  ∀ (path : List Nat) (α : Type) (m : GoMap α), (ρ.order path α m).Perm m

/-- Every `range` takes the order in which its map is listed. -/
def RangeOrder.listed : RangeOrder := ⟨fun _ _ m => m⟩

/-- Every `range` takes the reverse of the order in which its map is listed. -/
def RangeOrder.reversed : RangeOrder := ⟨fun _ _ m => m.reverse⟩

/-! ## Library functions -/

/-- Split a string at every occurrence of a one-character separator. -/
def splitSep (sep : Char) : List Char → List (List Char)
  | [] => [[]]
  | c :: cs =>
    if c = sep then [] :: splitSep sep cs
    else
      match splitSep sep cs with
      | [] => [[c]]
      | p :: ps => (c :: p) :: ps

/-- Go `strings.Split(s, "/")`. -/
def stringsSplitSlash (s : String) : List String :=
  (splitSep '/' s.data).map String.mk

/-- Go `m[k]` with the comma-ok form. -/
def mapGet {α : Type} (m : GoMap α) (k : String) : Option α :=
  List.lookup k m

/-- Go `m[k]` on a `map[string]bool`: a missing key reads as `false`. -/
def mapGetBool (m : GoMap Bool) (k : String) : Bool :=
  (List.lookup k m).getD false

/-- Go `x.(string)`: `none` is the panic of a failed assertion. -/
def JSON.assertString : JSON → Option String
  | .str v => some v
  | _ => none

/-- Go `x != nil` on an `interface{}`. -/
def JSON.isNil : JSON → Bool
  | .null => true
  | _ => false

/-- Go `<` on strings, byte-wise lexicographic; on valid UTF-8 this is the
lexicographic order of the code points. -/
def strLtChars : List Char → List Char → Bool
  | [], [] => false
  | [], _ :: _ => true
  | _ :: _, [] => false
  | a :: as, b :: bs =>
    if a.toNat < b.toNat then true
    else if b.toNat < a.toNat then false
    else strLtChars as bs

/-- Go `a < b` on strings. -/
def strLt (a b : String) : Bool := strLtChars a.data b.data

/-! ## The methods of `SwaggerMarkdown` that compute values -/

/-- `extractRefName`: the last part of `ref` split at `/`; `none` is an index
out of range. -/
def extractRefName (_s : SwaggerMarkdown) (ref : String) : Option String :=
  let parts := stringsSplitSlash ref
  parts[parts.length - 1]?

/-- `contains`: linear search in a slice of strings. -/
def contains (_s : SwaggerMarkdown) (slice : List String) (item : String) : Bool :=
  match slice with
  | [] => false
  | x :: rest => if x = item then true else contains _s rest item

/-- `getPropertyType`. -/
def getPropertyType (s : SwaggerMarkdown) (prop : Property) : Option String :=
  if prop.Ref ≠ "" then
    extractRefName s prop.Ref
  else
    -- `prop.Type == "array" && prop.Items != nil`, then `prop.Items` is read
    match (if prop.Type_ = "array" then prop.Items else none) with
    | some items =>
      if items.Ref ≠ "" then
        (extractRefName s items.Ref).map (fun n => "[]" ++ n)
      else
        some ("[]" ++ prop.Type_)
    | none =>
      if prop.Format ≠ "" then
        some (prop.Type_ ++ " (" ++ prop.Format ++ ")")
      else if !prop.Properties.isNil then
        some "object"
      else if prop.AllOf.length > 0 then
        some "object (allOf)"
      else
        some prop.Type_

/-- `getParamType`. -/
def getParamType (s : SwaggerMarkdown) (param : Parameter) : Option String :=
  if param.Schema.Ref ≠ "" then
    extractRefName s param.Schema.Ref
  else
    -- `param.Schema.Type == "array" && param.Schema.Items != nil`
    match (if param.Schema.Type_ = "array" then param.Schema.Items else none) with
    | some items => (extractRefName s items.Ref).map (fun n => "[]" ++ n)
    | none => some param.Type_

/-! ## The methods that write -/

/-- The header line of a field table. -/
def fieldTableHeader : String := "| 字段 | 类型 | 描述 |\n"

/-- The rule line of a field table. -/
def fieldTableRule : String := "|------|------|------|\n"

/-- `fmt.Sprintf("| %s | `%s` | %s |\n", field, fieldType, description)`. -/
def fieldRow (field fieldType description : String) : String :=
  "| " ++ field ++ " | `" ++ fieldType ++ "` | " ++ description ++ " |\n"

/-- `fmt.Sprintf("| %s | `%s` | %s | %s |\n", name, type, required, description)`. -/
def paramRow (name type_ required description : String) : String :=
  "| " ++ name ++ " | `" ++ type_ ++ "` | " ++ required ++ " | " ++ description ++ " |\n"

/-- `fmt.Sprintf("**%s 结构详情**:\n\n", field)`. -/
def detailTitle (field : String) : String := "**" ++ field ++ " 结构详情**:\n\n"

/-- `fmt.Sprintf("\n**%s 结构详情**:\n\n", field)`. -/
def nestedDetailTitle (field : String) : String := "\n**" ++ field ++ " 结构详情**:\n\n"

/-- `fmt.Sprintf("**%s 数组元素结构**:\n\n", field)`. -/
def arrayTitle (field : String) : String := "**" ++ field ++ " 数组元素结构**:\n\n"

/-- `fmt.Sprintf("\n**嵌套引用**: %s\n\n", refName)`. -/
def nestedRefTitle (refName : String) : String := "\n**嵌套引用**: " ++ refName ++ "\n\n"

/-- One row of a field table: the body of the row loops of
`writeDefinitionFields` (lines 304-307 and 315-318). -/
def writeFieldRow (s : SwaggerMarkdown) (fp : String × Property) : Run :=
  Run.withValue (getPropertyType s fp.2) fun fieldType =>
    Run.write (fieldRow fp.1 fieldType fp.2.Description)

/-- The type column of a row of `writeNestedFields` (lines 416-429). -/
def nestedFieldType (s : SwaggerMarkdown) (propMap : GoMap JSON) : Option String := do
  let t0 := "object"
  let t1 ← match mapGet propMap "type" with
    | some t => t.assertString
    | none => some t0
  let t2 ← match mapGet propMap "$ref" with
    | some ref => ref.assertString >>= extractRefName s
    | none => some t1
  match mapGet propMap "items" with
    | some (.obj itemsMap) =>
      match mapGet itemsMap "$ref" with
      | some ref => (ref.assertString >>= extractRefName s).map (fun n => "[]" ++ n)
      | none => some t2
    | _ => some t2

/-- The description column of a row of `writeNestedFields` (lines 431-434). -/
def nestedDescription (propMap : GoMap JSON) : Option String :=
  match mapGet propMap "description" with
  | some desc => desc.assertString
  | none => some ""

/-- The pattern `refName := s.extractRefName(ref); if d, exists := defs[refName];
exists { ... }`: `k` runs on the name and the model when the model exists. -/
def withDefinition (s : SwaggerMarkdown) (defs : GoMap Definition) (ref : String)
    (k : String → Definition → Run) : Run :=
  Run.withValue (extractRefName s ref) fun refName =>
    match mapGet defs refName with
    | some d => k refName d
    | none => Run.skip

/-- The body of the `allOf` loop of `writeDefinitionFields` (lines 294-309);
`recDef` is the recursive call of `writeDefinitionFields`. -/
def definitionAllOfStep (s : SwaggerMarkdown) (ρ : RangeOrder) (defs : GoMap Definition)
    (recDef : RangeOrder → Definition → Run) (allOfItem : AllOfItem) : Run :=
  if allOfItem.Ref ≠ "" then
    withDefinition s defs allOfItem.Ref fun _ nestedDef => recDef ρ nestedDef
  else
    match allOfItem.Properties with
    | some props =>
      Run.seq (Run.write fieldTableHeader)
        (Run.seq (Run.write fieldTableRule) (Run.forEach (writeFieldRow s) (ρ.range props)))
    | none => Run.skip

/-- The body of the second loop over `def.Properties` in
`writeDefinitionFields` (lines 322-361); `recDef` and `recNested` are the
recursive calls of `writeDefinitionFields` and `writeNestedFields`. -/
def definitionNestedStep (s : SwaggerMarkdown) (ρ : RangeOrder) (defs : GoMap Definition)
    (recDef : RangeOrder → Definition → Run) (recNested : RangeOrder → GoMap JSON → Run)
    (fp : String × Property) : Run :=
  Run.seq
    (match fp.2.Properties with
      | .obj nestedProps =>
        Run.seq (Run.write (detailTitle fp.1)) (recNested (ρ.sub 0) nestedProps)
      | _ => Run.skip)
    (Run.seq
      (if fp.2.Ref ≠ "" then
        withDefinition s defs fp.2.Ref fun _ nestedDef =>
          Run.seq (Run.write (detailTitle fp.1)) (recDef (ρ.sub 1) nestedDef)
      else Run.skip)
      (Run.seq
        (Run.forEachFrom (fun (k : Nat) (allOfItem : AllOfItem) =>
          if allOfItem.Ref ≠ "" then
            withDefinition s defs allOfItem.Ref fun _ nestedDef =>
              Run.seq (Run.write (detailTitle fp.1)) (recDef ((ρ.sub 2).sub k) nestedDef)
          else Run.skip) 0 fp.2.AllOf)
        -- `prop.Type == "array" && prop.Items != nil && prop.Items.Ref != ""`
        (match (if fp.2.Type_ = "array" then fp.2.Items else none) with
          | some items =>
            if items.Ref ≠ "" then
              withDefinition s defs items.Ref fun _ df =>
                Run.seq (Run.write (arrayTitle fp.1)) (recDef (ρ.sub 3) df)
            else Run.skip
          | none => Run.skip)))

/-- The body of the loop of `writeNestedFields` (lines 414-472). -/
def nestedStep (s : SwaggerMarkdown) (ρ : RangeOrder) (defs : GoMap Definition)
    (recDef : RangeOrder → Definition → Run) (recNested : RangeOrder → GoMap JSON → Run)
    (fp : String × JSON) : Run :=
  match fp.2 with
  | .obj propMap =>
    Run.withValue (nestedFieldType s propMap) fun fieldType =>
    Run.withValue (nestedDescription propMap) fun description =>
    Run.seq (Run.write (fieldRow fp.1 fieldType description))
      (Run.seq
        (match mapGet propMap "$ref" with
          | some ref =>
            Run.withValue ref.assertString fun refStr =>
              withDefinition s defs refStr fun refName nestedDef =>
                Run.seq (Run.write (nestedRefTitle refName)) (recDef (ρ.sub 0) nestedDef)
          | none => Run.skip)
        (Run.seq
          (match mapGet propMap "properties" with
            | some (.obj nestedMap) =>
              Run.seq (Run.write (nestedDetailTitle fp.1)) (recNested (ρ.sub 1) nestedMap)
            | _ => Run.skip)
          (match mapGet propMap "allOf" with
            | some (.arr allOfList) =>
              Run.forEachFrom (fun (k : Nat) (item : JSON) =>
                match item with
                | .obj allOfMap =>
                  match mapGet allOfMap "$ref" with
                  | some ref =>
                    Run.withValue ref.assertString fun refStr =>
                      withDefinition s defs refStr fun _ nestedDef =>
                        Run.seq (Run.write (nestedDetailTitle fp.1))
                          (recDef ((ρ.sub 2).sub k) nestedDef)
                  | none => Run.skip
                | _ => Run.skip) 0 allOfList
            | _ => Run.skip)))
  | _ => Run.skip

mutual
/-- `writeDefinitionFields`; every call of a writing method costs one unit of
fuel. The `allOf` loop is part 0 of the call, the `range` of the rows is part
1 and the `range` of the nested structures is part 2. -/
def writeDefinitionFields (s : SwaggerMarkdown) :
    RangeOrder → Nat → Definition → GoMap Definition → Run
  | _, 0, _, _ => Run.outOfFuel
  | ρ, fuel + 1, d, defs =>
    Run.seq
      (Run.forEachFrom
        (fun (i : Nat) (allOfItem : AllOfItem) =>
          definitionAllOfStep s ((ρ.sub 0).sub i) defs
            (fun ρ' nestedDef => writeDefinitionFields s ρ' fuel nestedDef defs) allOfItem)
        0 d.AllOf)
      (if d.Properties.length > 0 then
        Run.seq (Run.write fieldTableHeader)
          (Run.seq (Run.write fieldTableRule)
            (Run.seq (Run.forEach (writeFieldRow s) ((ρ.sub 1).range d.Properties))
              (Run.seq (Run.write "\n")
                (Run.forEachFrom
                  (fun (j : Nat) (fp : String × Property) =>
                    definitionNestedStep s ((ρ.sub 2).sub j) defs
                      (fun ρ' nestedDef => writeDefinitionFields s ρ' fuel nestedDef defs)
                      (fun ρ' nestedProps => writeNestedFields s ρ' fuel nestedProps defs) fp)
                  0 ((ρ.sub 2).range d.Properties)))))
      else Run.skip)
/-- `writeNestedFields`; the body of the loop for the entry numbered `j` is
part `j` of the call. -/
def writeNestedFields (s : SwaggerMarkdown) :
    RangeOrder → Nat → GoMap JSON → GoMap Definition → Run
  | _, 0, _, _ => Run.outOfFuel
  | ρ, fuel + 1, props, defs =>
    Run.seq (Run.write fieldTableHeader)
      (Run.seq (Run.write fieldTableRule)
        (Run.forEachFrom
          (fun (j : Nat) (fp : String × JSON) =>
            nestedStep s (ρ.sub j) defs
              (fun ρ' nestedDef => writeDefinitionFields s ρ' fuel nestedDef defs)
              (fun ρ' nestedProps => writeNestedFields s ρ' fuel nestedProps defs) fp)
          0 (ρ.range props)))
end

/-- `writeResponseSchema`. -/
def writeResponseSchema (s : SwaggerMarkdown) (ρ : RangeOrder) (fuel : Nat) (schema : Schema)
    (defs : GoMap Definition) : Run :=
  if schema.AllOf.length > 0 then
    Run.forEachFrom (fun (i : Nat) (allOfItem : SchemaAllOf) =>
      if allOfItem.Ref ≠ "" then
        withDefinition s defs allOfItem.Ref fun _ d =>
          writeDefinitionFields s (ρ.sub i) fuel d defs
      else Run.skip) 0 schema.AllOf
  else
    -- lines 389-405, reached when there is no reference or it names no model
    let arrayOrType : Run :=
      match (if schema.Type_ = "array" then schema.Items else none) with
      | some items =>
        if items.Ref ≠ "" then
          Run.withValue (extractRefName s items.Ref) fun refName =>
            Run.seq (Run.write ("数组类型: `[]" ++ refName ++ "`\n\n"))
              (match mapGet defs refName with
                | some d =>
                  Run.seq (Run.write "**数组元素结构**:\n\n")
                    (writeDefinitionFields s ρ fuel d defs)
                | none => Run.skip)
        else if schema.Type_ ≠ "" then Run.write ("`" ++ schema.Type_ ++ "`\n")
        else Run.skip
      | none =>
        if schema.Type_ ≠ "" then Run.write ("`" ++ schema.Type_ ++ "`\n")
        else Run.skip
    if schema.Ref ≠ "" then
      Run.withValue (extractRefName s schema.Ref) fun refName =>
        match mapGet defs refName with
        | some d => writeDefinitionFields s ρ fuel d defs
        | none => arrayOrType
    else arrayOrType

/-- The rows written for a referenced parameter whose model is known: the loop
over `def.Properties` in `writePaths` (lines 232-245). -/
def writeParamFields (s : SwaggerMarkdown) (ρ : RangeOrder) (d : Definition) : Run :=
  Run.forEach (fun (fp : String × Property) =>
    if mapGetBool s.IgnoredFields fp.1 then Run.skip
    else
      Run.withValue (getPropertyType s fp.2) fun fieldType =>
        Run.write (paramRow fp.1 fieldType
          (if contains s d.Required fp.1 then "是" else "否") fp.2.Description))
    (ρ.range d.Properties)

/-- The row of an ordinary parameter in `writePaths` (lines 250-262). -/
def writeParamPlain (s : SwaggerMarkdown) (param : Parameter) : Run :=
  if mapGetBool s.IgnoredFields param.Name then Run.skip
  else
    Run.withValue (getParamType s param) fun paramType =>
      Run.write (paramRow param.Name paramType
        (if param.Required then "是" else "否") param.Description)

/-- The body of the parameter loop of `writePaths` (lines 226-263). -/
def writeParam (s : SwaggerMarkdown) (ρ : RangeOrder) (defs : GoMap Definition)
    (param : Parameter) : Run :=
  if param.Schema.Ref ≠ "" then
    Run.withValue (extractRefName s param.Schema.Ref) fun refName =>
      match mapGet defs refName with
      | some d => writeParamFields s ρ d
      | none => writeParamPlain s param
  else writeParamPlain s param

/-- The parameter loop of `writePaths` (lines 226-263): the rows of the
parameter table; the parameter numbered `i` is part `i` of the loop. -/
def writeParams (s : SwaggerMarkdown) (ρ : RangeOrder) (defs : GoMap Definition)
    (params : List Parameter) : Run :=
  Run.forEachFrom (fun (i : Nat) (param : Parameter) => writeParam s (ρ.sub i) defs param)
    0 params

/-- The comparison closure handed to `sort.Slice` in `writePaths`
(lines 189-204), on the two items it indexes. -/
def pathLess (s : SwaggerMarkdown) (a b : pathItem) : Bool :=
  match mapGet s.CustomOrder a.path, mapGet s.CustomOrder b.path with
  | some orderI, some orderJ => decide (orderI < orderJ)
  | some _, none => true
  | none, some _ => false
  | none, none => strLt a.path b.path

/-- One step of the insertion sort of Go's `sort` package: `x` moves left
past every element it is less than. The sorted part is kept reversed. -/
def insertFromRight {α : Type} (less : α → α → Bool) (x : α) : List α → List α
  | [] => [x]
  | p :: ps => if less x p then p :: insertFromRight less x ps else x :: p :: ps

/-- Go `sort.Slice`, as the insertion sort that the library runs on short
slices. The theorems about its result use only that the result is a
permutation of the input without inversions. -/
def sortSlice {α : Type} (less : α → α → Bool) (xs : List α) : List α :=
  (xs.foldl (fun acc x => insertFromRight less x acc) []).reverse

/-- What `writePaths` takes from the standard library, besides sorting:
`strings.ToUpper`, `strings.TrimSpace`, and the decoding of an endpoint's
details into an `Operation` (`json.Marshal` followed by `json.Unmarshal`, whose
errors the code drops). -/
structure Library where
  toUpper : String → String
  trimSpace : String → String
  decodeOperation : JSON → Operation

/-- The first loop of `writePaths` (lines 177-186) on the path entries as they
are enumerated, numbered from `i`: the endpoints of each path in the order of
the `range` over its methods; `none` is the panic of the assertion
`methods.(map[string]interface{})`. -/
def flattenEntries (ρ : RangeOrder) : Nat → GoMap JSON → Option (List pathItem)
  | _, [] => some []
  | i, (path, methods) :: rest =>
    match methods with
    | .obj methodMap =>
      (flattenEntries ρ (i + 1) rest).map fun items =>
        (((ρ.sub i).range methodMap).map fun md => (⟨path, md.1, md.2⟩ : pathItem)) ++ items
    | _ => none

/-- The first loop of `writePaths` (lines 176-186): the endpoints of all
paths, in the order of enumeration. -/
def flattenPaths (ρ : RangeOrder) (paths : GoMap JSON) : Option (List pathItem) :=
  flattenEntries ρ 0 (ρ.range paths)

/-- The body of the last loop of `writePaths` (lines 207-277): the section of
one endpoint. The parameter table is part 0 of it and the `range` over the
responses is part 1. -/
def writeOperation (s : SwaggerMarkdown) (lib : Library) (ρ : RangeOrder) (fuel : Nat)
    (defs : GoMap Definition) (item : pathItem) : Run :=
  let op := lib.decodeOperation item.detail
  Run.seq (Run.write ("### " ++ op.Summary ++ "\n\n"))
    (Run.seq (Run.write ("**接口地址**：`" ++ item.path ++ "`  \n"))
      (Run.seq (Run.write ("**请求方式**：`" ++ lib.toUpper item.method ++ "`  \n"))
        (Run.seq
          (if lib.trimSpace op.Description ≠ "" then
            Run.write ("**接口描述**：" ++ op.Description ++ "  \n")
          else Run.skip)
          (Run.seq
            (if op.Parameters.length > 0 then
              Run.seq (Run.write "\n**请求参数:**\n\n")
                (Run.seq (Run.write "| 名称 | 类型 | 是否必填 | 描述 |\n")
                  (Run.seq (Run.write "|------|------|----------|------|\n")
                    (Run.seq (writeParams s (ρ.sub 0) defs op.Parameters) (Run.write "\n"))))
            else Run.skip)
            (Run.seq
              (Run.forEachFrom (fun (k : Nat) (response : String × ResponseValue) =>
                let respSchema := response.2.Schema
                if respSchema.Ref ≠ "" ∨ respSchema.Type_ ≠ "" ∨ respSchema.AllOf.length > 0 then
                  Run.seq (Run.write "\n**响应体结构**:\n\n")
                    (writeResponseSchema s ((ρ.sub 1).sub k) fuel respSchema defs)
                else Run.skip) 0 ((ρ.sub 1).range op.Responses))
              (Run.write "\n---\n"))))))

/-- `writePaths`. Collecting the endpoints is part 0 of the call, and the
section of the endpoint numbered `n` in the sorted list is part `n` of
part 1. -/
def writePaths (s : SwaggerMarkdown) (lib : Library) (ρ : RangeOrder) (fuel : Nat)
    (paths : GoMap JSON) (defs : GoMap Definition) : Run :=
  Run.seq (Run.write "\n## 接口详情\n")
    (Run.withValue (flattenPaths (ρ.sub 0) paths) fun pathList =>
      Run.forEachFrom
        (fun (n : Nat) (item : pathItem) => writeOperation s lib ((ρ.sub 1).sub n) fuel defs item)
        0 (sortSlice (pathLess s) pathList))

/-! ## Concrete inputs used in the examples -/

/-- A converter with no order and no ignored field. -/
def plainConverter : SwaggerMarkdown := ⟨[], []⟩

/-- A converter whose ignore-set is `_app_id`. -/
def appIdConverter : SwaggerMarkdown := ⟨[], [("_app_id", true)]⟩

/-- A property with a reference of its own that is also an array of a
referenced element. -/
def refArrayProperty : Property :=
  .mk "array" "" "" "#/definitions/X" (some ⟨"#/definitions/Y"⟩) .null []

/-- An array property whose elements are referenced:
`{"type": "array", "items": {"$ref": "#/definitions/Y"}}`. -/
def arrayOfRefProperty : Property :=
  .mk "array" "" "" "" (some ⟨"#/definitions/Y"⟩) .null []

/-- An array of strings, `{"type": "array", "items": {"type": "string"}}`:
the decoder keeps no element type, `Items` has only `Ref`. -/
def arrayOfStringProperty : Property :=
  .mk "array" "" "" "" (some ⟨""⟩) .null []

/-- A property that only has a composite inclusion:
`{"type": "object", "allOf": [{"$ref": "#/definitions/B"}]}`. -/
def compositeProperty : Property :=
  .mk "object" "" "" "" none .null [.mk "#/definitions/B" "" none]

/-- The model `UserRegister`: `name` (string, required) and `_app_id`
(string). -/
def userRegister : Definition :=
  ⟨"object", [("name", .ofType "string"), ("_app_id", .ofType "string")], ["name"], []⟩

/-- The same model with its fields listed in the other order. -/
def userRegisterSwapped : Definition :=
  ⟨"object", [("_app_id", .ofType "string"), ("name", .ofType "string")], ["name"], []⟩

/-- A body parameter whose schema is the reference `ref`. -/
def bodyParam (ref : String) : Parameter :=
  ⟨"body", "body", "", false, "", ⟨ref, "", none, []⟩⟩

/-- A query parameter of type string. -/
def queryParam (name : String) : Parameter :=
  ⟨name, "query", "", true, "string", ⟨"", "", none, []⟩⟩

/-- A response model with an inline nested object `data`, both holding a
field `_app_id`. -/
def respModel : Definition :=
  ⟨"object",
    [("_app_id", .ofType "string"),
     ("data", .mk "object" "" "" "" none
        (.obj [("_app_id", .obj [("type", .str "string")])]) [])],
    [], []⟩

/-- The model `B` with the field `x: int`. -/
def modelB : Definition := ⟨"object", [("x", .ofType "int")], [], []⟩

/-- The model `A`: its own field `y: string` and a composite inclusion of
`B`. -/
def modelA : Definition :=
  ⟨"object", [("y", .ofType "string")], [], [.mk "#/definitions/B" "" none]⟩

/-- A model with a composite inclusion of `B` whose own field `y` is also a
reference to `B`. -/
def modelARef : Definition :=
  ⟨"object", [("y", .mk "" "" "" "#/definitions/B" none .null [])], [],
    [.mk "#/definitions/B" "" none]⟩

/-- A property that `writeDefinitionFields` does not expand below the table:
no inline object, no reference, no composite inclusion, and not an array of a
referenced element. -/
def Property.flat (p : Property) : Bool :=
  (match p.Properties with
    | .obj _ => false
    | _ => true) &&
  p.Ref == "" && p.AllOf.isEmpty &&
  (match (if p.Type_ = "array" then p.Items else none) with
    | some items => items.Ref == ""
    | none => true)

/-- The row of a field table that belongs to the field `fp`. -/
def IsFieldRow (s : SwaggerMarkdown) (fp : String × Property) (row : String) : Prop :=
  ∃ ty, getPropertyType s fp.2 = some ty ∧ row = fieldRow fp.1 ty fp.2.Description

/-- A converter whose order map gives `A` the priority 2 and `B` the
priority 1. -/
def orderConverter : SwaggerMarkdown := ⟨[("A", 2), ("B", 1)], []⟩

/-- An endpoint `GET path`. -/
def endpoint (path : String) : pathItem := ⟨path, "get", .null⟩

/-! ## The references a rendering follows -/

/-- The non-empty references of a list of composite items. -/
def allOfRefs (items : List AllOfItem) : List String :=
  (items.map AllOfItem.Ref).filter fun ref => ref ≠ ""

mutual
/-- The references `writeNestedFields` follows from the map `props`, at any
depth of inline nesting. -/
def nestedRefs : List (String × JSON) → List String
  | [] => []
  | (_, prop) :: rest => nestedPropRefs prop ++ nestedRefs rest
/-- The references followed from one inline property. -/
def nestedPropRefs : JSON → List String
  | .obj propMap => nestedEntryRefs propMap
  | _ => []
/-- The references followed from the keys `$ref`, `properties` and `allOf` of
an inline property. -/
def nestedEntryRefs : List (String × JSON) → List String
  | [] => []
  | (k, v) :: rest =>
    (if k = "$ref" then
      (match v with
        | .str ref => [ref]
        | _ => [])
    else if k = "properties" then
      (match v with
        | .obj nestedMap => nestedRefs nestedMap
        | _ => [])
    else if k = "allOf" then
      (match v with
        | .arr allOfList => nestedAllOfRefs allOfList
        | _ => [])
    else []) ++ nestedEntryRefs rest
/-- The references of the items of an inline `allOf` list. -/
def nestedAllOfRefs : List JSON → List String
  | [] => []
  | item :: rest =>
    (match item with
      | .obj allOfMap =>
        (match mapGet allOfMap "$ref" with
          | some (.str ref) => [ref]
          | _ => [])
      | _ => []) ++ nestedAllOfRefs rest
end

/-- The references `writeDefinitionFields` follows from one field. -/
def propertyRefs (p : Property) : List String :=
  (match p.Properties with
    | .obj nestedProps => nestedRefs nestedProps
    | _ => []) ++
  ((if p.Ref ≠ "" then [p.Ref] else []) ++
  (allOfRefs p.AllOf ++
  (match (if p.Type_ = "array" then p.Items else none) with
    | some items => if items.Ref ≠ "" then [items.Ref] else []
    | none => [])))

/-- The references `writeDefinitionFields` follows from a model: its composite
inclusions and, for each field, its reference, composite inclusions, array
elements and inline objects. -/
def definitionRefs (d : Definition) : List String :=
  allOfRefs d.AllOf ++ (d.Properties.map fun fp => propertyRefs fp.2).flatten

/-- Every reference of a model of the table that names a model of the table
goes to a model of smaller rank: the reference graph has no cycle. -/
def refsDescend (s : SwaggerMarkdown) (defs : GoMap Definition) (rank : String → Nat) : Bool :=
  defs.all fun e =>
    (definitionRefs e.2).all fun ref =>
      match extractRefName s ref with
      | some name => (mapGet defs name).isNone || decide (rank name < rank e.1)
      | none => true

/-- A run that ends, normally or with a panic. -/
def Run.Halts (r : Run) : Prop := r.status ≠ .outOfFuel

/-- The run `b` is what `a` becomes with more fuel: when `a` ends, `b` is the
same run. -/
def Run.Refines (a b : Run) : Prop := a.Halts → b = a

/-- Every reference of `refs` that names a model of the table names one on
which the recursive call `recDef` ends, whatever the orders of `range`. -/
def CalleesHalt (s : SwaggerMarkdown) (defs : GoMap Definition)
    (recDef : RangeOrder → Definition → Run) (refs : List String) : Prop :=
  ∀ ref ∈ refs, ∀ name d, extractRefName s ref = some name →
    mapGet defs name = some d → ∀ ρ : RangeOrder, ρ.Valid → (recDef ρ d).Halts

/-- A model whose composite inclusion is the model itself. -/
def modelSelf : Definition := ⟨"object", [], [], [.mk "#/definitions/A" "" none]⟩

/-- A rank for the table of `A` and `B`: `A` is above `B`. -/
def rankAB (name : String) : Nat := if name = "A" then 1 else 0

/-! ## The converter's configuration and entry point -/

/-- The Go struct `Info`. -/
structure Info where
  Title : String
  Description : String
  Version : String

/-- The Go struct `Swagger`; `Swagger_` is its field `Swagger`. -/
structure Swagger where
  Swagger_ : String
  Info : Info
  Paths : GoMap JSON
  Definitions : GoMap Definition

/-- `NewSwaggerMarkdown`: both maps are made empty. -/
def NewSwaggerMarkdown : SwaggerMarkdown :=
  { CustomOrder := [], IgnoredFields := [] }

/-- `SetOrder`: the converter after the call. -/
def SetOrder (s : SwaggerMarkdown) (param : GoMap Int) : SwaggerMarkdown :=
  { s with CustomOrder := param }

/-- `SetIgnored`: the converter after the call. -/
def SetIgnored (s : SwaggerMarkdown) (param : GoMap Bool) : SwaggerMarkdown :=
  { s with IgnoredFields := param }

/-- `writeHeader`. -/
def writeHeader (_s : SwaggerMarkdown) (swagger : Swagger) : Run :=
  Run.write ("# " ++ swagger.Info.Title ++ "\n\n**版本**: " ++ swagger.Info.Version ++
    "  \n**描述**: " ++ swagger.Info.Description ++ "\n\n## 接口概览\n")

/-- `resolveSchema`; `none` is a panic, the empty `Definition` is
`Definition{}`. -/
def resolveSchema (s : SwaggerMarkdown) (schema : Schema) (defs : GoMap Definition) :
    Option Definition :=
  if schema.Ref ≠ "" then
    match extractRefName s schema.Ref with
    | none => none
    | some refName =>
      match mapGet defs refName with
      | some d => some d
      | none => some ⟨"", [], [], []⟩
  else some ⟨"", [], [], []⟩

/-- What `Generate` takes from the operating system and from `encoding/json`:
`os.ReadFile`, `json.Unmarshal` into a `Swagger` and `os.Create`; `none` and
`false` are their errors. -/
structure System where
  readFile : String → Option String
  unmarshal : String → Option Swagger
  create : String → Bool

/-- How a call of `Generate` ends: with an error returned before the report
file is opened, or with the run that wrote to the report file. -/
inductive GenerateResult where
  | failed
  | ran (file : Run)
deriving DecidableEq, Repr

/-- `Generate`. -/
def Generate (s : SwaggerMarkdown) (lib : Library) (sys : System) (ρ : RangeOrder)
    (fuel : Nat) (swaggerFilePath markdownFilePath : String) : GenerateResult :=
  match sys.readFile swaggerFilePath with
  | none => .failed
  | some data =>
    match sys.unmarshal data with
    | none => .failed
    | some swagger =>
      if sys.create markdownFilePath then
        .ran (Run.seq (writeHeader s swagger)
          (writePaths s lib ρ fuel swagger.Paths swagger.Definitions))
      else .failed

/-! ## Decoding an inline property -/

/-- The character that `encoding/json` compares in place of `c` when it
matches the key of an object with the name of a struct field: the upper case
letter for an ASCII letter; the long s (U+017F) and the Kelvin sign (U+212A)
are the only other characters that are matched with an ASCII letter. -/
def foldChar (c : Char) : Char :=
  if c.toNat = 0x17F then 'S' else if c.toNat = 0x212A then 'K' else c.toUpper

/-- A key as `encoding/json` compares it with the name of a struct field. -/
def foldName (key : String) : List Char := key.data.map foldChar

/-- The member of a JSON object that `encoding/json` decodes into the struct
field with the name `tag`: keys are matched without regard to case. When two
keys of one object name the same field, the decoder stores both, one after the
other; this definition takes the first, and stands for the decoder on the
objects in which no two keys name the same field. -/
def fieldMember (members : GoMap JSON) (tag : String) : Option JSON :=
  (members.find? fun kv => foldName kv.1 == foldName tag).map Prod.snd

/-- A string field decoded from a JSON object; a missing member, or one that
is not a string, leaves the zero value. -/
def stringMember (members : GoMap JSON) (tag : String) : String :=
  ((fieldMember members tag).bind JSON.assertString).getD ""

/-- A field of type `*Items` decoded from a JSON object: a missing member or
`null` leaves the pointer nil, an object is decoded into a new `Items`, and
for any other value the decoder allocates the `Items`, reports the error and
leaves its `Ref` empty. -/
def itemsMember (members : GoMap JSON) : Option Items :=
  match fieldMember members "items" with
  | none => none
  | some .null => none
  | some (.obj itemsMap) => some ⟨stringMember itemsMap "$ref"⟩
  | some _ => some ⟨""⟩

mutual
/-- The `Property` that `encoding/json` decodes from a JSON value, when the
errors of the decoder are dropped; a member of the wrong type leaves its field
at the zero value. -/
def decodeProperty : JSON → Property
  | .obj members =>
    .mk (stringMember members "type") (stringMember members "format")
      (stringMember members "description") (stringMember members "$ref")
      (itemsMember members)
      ((fieldMember members "properties").getD .null)
      (decodeAllOfMember members)
  | _ => .mk "" "" "" "" none .null []
/-- The field `AllOf` decoded from the member `allOf` of an object. -/
def decodeAllOfMember : List (String × JSON) → List AllOfItem
  | [] => []
  | (k, v) :: rest =>
    if foldName k == foldName "allOf" then
      (match v with
        | .arr allOfList => decodeAllOfList allOfList
        | _ => [])
    else decodeAllOfMember rest
/-- The `[]AllOfItem` decoded from a JSON array. -/
def decodeAllOfList : List JSON → List AllOfItem
  | [] => []
  | item :: rest =>
    (match item with
      | .obj members =>
        .mk (stringMember members "$ref") (stringMember members "type")
          (decodePropertiesMember members)
      | _ => .mk "" "" none) :: decodeAllOfList rest
/-- The field `Properties` of an `AllOfItem`, decoded from the member
`properties` of an object. -/
def decodePropertiesMember : List (String × JSON) → Option (List (String × Property))
  | [] => none
  | (k, v) :: rest =>
    if foldName k == foldName "properties" then
      (match v with
        | .obj members => some (decodePropertyMap members)
        | _ => none)
    else decodePropertiesMember rest
/-- The `map[string]Property` decoded from the members of a JSON object. -/
def decodePropertyMap : List (String × JSON) → List (String × Property)
  | [] => []
  | (k, v) :: rest => (k, decodeProperty v) :: decodePropertyMap rest
end

/-! ## More concrete inputs -/

/-- `strings.ToUpper` on a string of ASCII characters: the letters `a` to `z`
are mapped to `A` to `Z`, which is all that Go does to a string without a byte
above 0x7F. On other strings Go also maps the letters outside ASCII, which
this definition leaves as they are; the methods of the examples are ASCII. -/
def asciiUpper (t : String) : String := ⟨t.data.map Char.toUpper⟩

/-- `unicode.IsSpace`: the white space of Latin-1 (`\t`, `\n`, `\v`, `\f`,
`\r`, space, U+0085, U+00A0) and the characters with the Unicode property
White_Space above it. -/
def isSpace (c : Char) : Bool :=
  let n := c.toNat
  n == 0x09 || n == 0x0A || n == 0x0B || n == 0x0C || n == 0x0D || n == 0x20 ||
    n == 0x85 || n == 0xA0 || n == 0x1680 || (0x2000 ≤ n && n ≤ 0x200A) ||
    n == 0x2028 || n == 0x2029 || n == 0x202F || n == 0x205F || n == 0x3000

/-- `strings.TrimSpace`: the string without its leading and trailing white
space. -/
def trimSpace (t : String) : String :=
  ⟨((t.data.dropWhile isSpace).reverse.dropWhile isSpace).reverse⟩

/-- The `Schema` that `encoding/json` decodes from a JSON value, when the
errors of the decoder are dropped. -/
def decodeSchema : JSON → Schema
  | .obj members =>
    ⟨stringMember members "$ref", stringMember members "type", itemsMember members,
      (match fieldMember members "allOf" with
        | some (.arr allOfList) =>
          allOfList.map fun item =>
            match item with
            | .obj itemMembers => ⟨stringMember itemMembers "$ref"⟩
            | _ => ⟨""⟩
        | _ => [])⟩
  | _ => ⟨"", "", none, []⟩

/-- The `Parameter` that `encoding/json` decodes from a JSON value, when the
errors of the decoder are dropped. -/
def decodeParameter : JSON → Parameter
  | .obj members =>
    ⟨stringMember members "name", stringMember members "in",
      stringMember members "description",
      (match fieldMember members "required" with
        | some (.bool b) => b
        | _ => false),
      stringMember members "type", decodeSchema ((fieldMember members "schema").getD .null)⟩
  | _ => ⟨"", "", "", false, "", ⟨"", "", none, []⟩⟩

/-- The `Operation` that the details of an endpoint decode to: `json.Marshal`
of the generic value followed by `json.Unmarshal` into `Operation`, whose
errors `writePaths` drops. -/
def decodeOperation : JSON → Operation
  | .obj members =>
    ⟨stringMember members "summary", stringMember members "description",
      (match fieldMember members "parameters" with
        | some (.arr params) => params.map decodeParameter
        | _ => []),
      (match fieldMember members "responses" with
        | some (.obj responses) =>
          responses.map fun r =>
            (r.1, (match r.2 with
              | .obj respMembers =>
                (⟨stringMember respMembers "description",
                  decodeSchema ((fieldMember respMembers "schema").getD .null)⟩ : ResponseValue)
              | _ => ⟨"", ⟨"", "", none, []⟩⟩))
        | _ => []),
      (match fieldMember members "tags" with
        | some (.arr tags) => tags.map fun tag => tag.assertString.getD ""
        | _ => [])⟩
  | _ => ⟨"", "", [], [], []⟩

/-- The library of the examples. -/
def jsonLibrary : Library := ⟨asciiUpper, trimSpace, decodeOperation⟩

/-- The details of an endpoint with one response, whose schema is the
reference `ref`:
`{"summary": "op", "responses": {"200": {"description": "ok", "schema": {"$ref": ref}}}}`. -/
def respondingDetail (ref : String) : JSON :=
  .obj [("summary", .str "op"),
    ("responses", .obj [("200", .obj [("description", .str "ok"),
      ("schema", .obj [("$ref", .str ref)])])])]

/-- The details of an endpoint that answers with the model `UserRegister`. -/
def registerDetail : JSON := respondingDetail "#/definitions/UserRegister"

/-- The details of an endpoint that answers with the model `M`. -/
def badDetail : JSON := respondingDetail "#/definitions/M"

/-- A system whose input file decodes to `swagger` and whose report file can
be created. -/
def exampleSystem (swagger : Swagger) : System :=
  ⟨fun _ => some "", fun _ => some swagger, fun _ => true⟩

/-- A document whose path `/a` is mapped to a string instead of a map from
methods to operations: `{"paths": {"/a": "oops"}}`. -/
def misshapenDocument : Swagger :=
  ⟨"2.0", ⟨"API", "demo", "1.0"⟩, [("/a", .str "oops")], []⟩

/-- The inline property `{"type": "string", "format": "date-time"}`. -/
def inlineDateProperty : GoMap JSON :=
  [("type", .str "string"), ("format", .str "date-time")]

/-- A model whose inline object `data` has a field `n` with a number where
the type name is expected: `{"n": {"type": 5}}`. -/
def modelBadInline : Definition :=
  ⟨"object",
    [("data", .mk "object" "" "" "" none (.obj [("n", .obj [("type", .num "5")])]) [])],
    [], []⟩

/-- Two paths with one method each, answering with `UserRegister`. -/
def twoPaths : GoMap JSON :=
  [("/a", .obj [("get", registerDetail)]), ("/b", .obj [("get", registerDetail)])]

/-- The same paths listed in the other order. -/
def twoPathsSwapped : GoMap JSON :=
  [("/b", .obj [("get", registerDetail)]), ("/a", .obj [("get", registerDetail)])]

/-- Two paths with one method each, answering with `M`. -/
def twoPathsBad : GoMap JSON :=
  [("/a", .obj [("get", badDetail)]), ("/b", .obj [("get", badDetail)])]

/-- A property with a type and a format:
`{"type": "string", "format": "date-time"}`. -/
def formattedProperty : Property := .mk "string" "date-time" "" "" none .null []

/-- A schema that is only the reference to a model `Ghost`. -/
def ghostSchema : Schema := ⟨"#/definitions/Ghost", "", none, []⟩

/-- The (path, method) pairs of a paths table, path by path and method by
method as they are listed. -/
def pathMethodPairs (paths : GoMap JSON) : List (String × String) :=
  (paths.map fun e =>
    match e.2 with
    | .obj methodMap => methodMap.map fun md => (e.1, md.1)
    | _ => []).flatten

/-- The endpoints of a paths table, path by path and method by method as
they are listed. -/
def endpointsOf (paths : GoMap JSON) : List pathItem :=
  (paths.map fun e =>
    match e.2 with
    | .obj methodMap => methodMap.map fun md => (⟨e.1, md.1, md.2⟩ : pathItem)
    | _ => []).flatten

/-- Every `range` executed while the endpoints are collected (part 0 of
`writePaths`) takes the reverse of the listed order, every other `range` the
listed order. -/
def RangeOrder.reversedCollect : RangeOrder :=
  ⟨fun path _ m =>
    match path with
    | 0 :: _ => m.reverse
    | _ => m⟩

/-- Only the second `range` over the fields in a call of
`writeDefinitionFields`, the loop over the nested structures (part 2 of the
call), takes the reverse of the listed order. -/
def RangeOrder.reversedSections : RangeOrder :=
  ⟨fun path _ m =>
    match path with
    | [2] => m.reverse
    | _ => m⟩

/-- A model with two fields that are references: `a` to `B` and `b` to `C`. -/
def modelTwoRefs : Definition :=
  ⟨"object",
    [("a", .mk "" "" "" "#/definitions/B" none .null []),
     ("b", .mk "" "" "" "#/definitions/C" none .null [])],
    [], []⟩

/-- The model `C` with the field `z: string`. -/
def modelC : Definition := ⟨"object", [("z", .ofType "string")], [], []⟩

/-- The details of an endpoint with two responses, `200` answering with the
model `B` and `400` answering with the model `C`. -/
def twoResponsesDetail : JSON :=
  .obj [("summary", .str "op"),
    ("responses", .obj [
      ("200", .obj [("description", .str "ok"),
        ("schema", .obj [("$ref", .str "#/definitions/B")])]),
      ("400", .obj [("description", .str "bad"),
        ("schema", .obj [("$ref", .str "#/definitions/C")])])])]

/-- One path with the two methods `get` and `post`. -/
def twoMethods : GoMap JSON :=
  [("/a", .obj [("get", registerDetail), ("post", registerDetail)])]

/-- The orders of `ρ` with the parts of the execution renumbered: part `i` of
the result is part `i + n` of `ρ`. -/
def RangeOrder.shift (ρ : RangeOrder) (n : Nat) : RangeOrder :=
  ⟨fun path =>
    match path with
    | [] => ρ.order []
    | i :: rest => ρ.order ((i + n) :: rest)⟩

/-- The orders of `ρ` with part `n` of the execution left out: the parts
before `n` keep their numbers and part `i` of the result, from `n` on, is
part `i + 1` of `ρ`. -/
def RangeOrder.without (ρ : RangeOrder) (n : Nat) : RangeOrder :=
  ⟨fun path =>
    match path with
    | [] => ρ.order []
    | i :: rest => ρ.order ((if i < n then i else i + 1) :: rest)⟩

/-- The model `UserRegister` with described fields: `name` (string, required,
described as `user name`) and `_app_id` (string, described as `app`). -/
def userDescribed : Definition :=
  ⟨"object",
    [("name", .mk "string" "" "user name" "" none .null []),
     ("_app_id", .mk "string" "" "app" "" none .null [])],
    ["name"], []⟩

/-- An optional query parameter `page` of type integer, described as
`page number`. -/
def pageParam : Parameter :=
  ⟨"page", "query", "page number", false, "integer", ⟨"", "", none, []⟩⟩

/-- A required query parameter `ids` that is an array of `Id`:
`{"schema": {"type": "array", "items": {"$ref": "#/definitions/Id"}}}`. -/
def idsParam : Parameter :=
  ⟨"ids", "query", "the ids", true, "", ⟨"", "array", some ⟨"#/definitions/Id"⟩, []⟩⟩

/-- A required body parameter `filter`, described as `the filter`, whose
schema is a reference to the model `Ghost`. -/
def ghostParam : Parameter :=
  ⟨"filter", "body", "the filter", true, "", ⟨"#/definitions/Ghost", "", none, []⟩⟩

/-- A query parameter named `_app_id`. -/
def appIdParam : Parameter :=
  ⟨"_app_id", "query", "app", true, "string", ⟨"", "", none, []⟩⟩

/-! ## Lemmas on the library functions -/

theorem splitSep_ne_nil (sep : Char) (cs : List Char) : splitSep sep cs ≠ [] := by
  induction cs with
  | nil => simp [splitSep]
  | cons c cs ih =>
    unfold splitSep
    split
    · simp
    · split
      · simp
      · simp

theorem extractRefName_isSome (s : SwaggerMarkdown) (ref : String) :
    ∃ name, extractRefName s ref = some name := by
  have hne : stringsSplitSlash ref ≠ [] := by
    simp [stringsSplitSlash, splitSep_ne_nil]
  have hlt : (stringsSplitSlash ref).length - 1 < (stringsSplitSlash ref).length :=
    Nat.sub_lt (List.length_pos.2 hne) Nat.one_pos
  exact ⟨(stringsSplitSlash ref)[(stringsSplitSlash ref).length - 1], by
    simp [extractRefName, List.getElem?_eq_getElem hlt]⟩

theorem getPropertyType_isSome (s : SwaggerMarkdown) (prop : Property) :
    ∃ ty, getPropertyType s prop = some ty := by
  unfold getPropertyType
  split
  · exact extractRefName_isSome s _
  · split
    · split
      · obtain ⟨n, hn⟩ := extractRefName_isSome s ‹Items›.Ref
        exact ⟨_, by rw [hn]; rfl⟩
      · exact ⟨_, rfl⟩
    · split
      · exact ⟨_, rfl⟩
      · split
        · exact ⟨_, rfl⟩
        · split <;> exact ⟨_, rfl⟩

theorem contains_iff (s : SwaggerMarkdown) (slice : List String) (item : String) :
    contains s slice item = true ↔ item ∈ slice := by
  induction slice with
  | nil => simp [contains]
  | cons x rest ih =>
    unfold contains
    by_cases h : x = item
    · simp [h]
    · simp [h, ih, Ne.symm h]

/-! ## Type rendering (`getPropertyType`) -/

/-- C1: a property with a non-empty `Ref` is rendered as
`extractRefName(Ref)`, which is defined, whatever its other fields hold. -/
theorem getPropertyType_of_ref (s : SwaggerMarkdown) (prop : Property)
    (h : prop.Ref ≠ "") :
    ∃ name, extractRefName s prop.Ref = some name ∧
      getPropertyType s prop = some name := by
  obtain ⟨name, hname⟩ := extractRefName_isSome s prop.Ref
  exact ⟨name, hname, by simp [getPropertyType, h, hname]⟩

/-- C1, at a property that also is an array of a referenced element. -/
theorem getPropertyType_of_ref_witness :
    refArrayProperty.Ref ≠ "" ∧
      ∃ name, extractRefName plainConverter refArrayProperty.Ref = some name ∧
        getPropertyType plainConverter refArrayProperty = some name :=
  ⟨by decide, getPropertyType_of_ref plainConverter refArrayProperty (by decide)⟩

/-- C2 as stated fails: an array of a referenced element `Y` that also has a
reference `X` of its own is rendered `X`, not `[]Y`. -/
theorem getPropertyType_array_of_ref_counterexample :
    refArrayProperty.Type_ = "array" ∧
      refArrayProperty.Items = some ⟨"#/definitions/Y"⟩ ∧
      extractRefName plainConverter "#/definitions/Y" = some "Y" ∧
      getPropertyType plainConverter refArrayProperty = some "X" ∧
      getPropertyType plainConverter refArrayProperty ≠ some ("[]" ++ "Y") := by
  decide

/-- C2, amended: a property without a reference of its own that is an array
(`Type` is `array`, `Items` present) of a referenced element is rendered as
`[]` followed by `extractRefName(Items.Ref)`. -/
theorem getPropertyType_array_of_ref (s : SwaggerMarkdown) (prop : Property)
    (items : Items) (hRef : prop.Ref = "") (hType : prop.Type_ = "array")
    (hItems : prop.Items = some items) (hItemsRef : items.Ref ≠ "") :
    ∃ name, extractRefName s items.Ref = some name ∧
      getPropertyType s prop = some ("[]" ++ name) := by
  obtain ⟨name, hname⟩ := extractRefName_isSome s items.Ref
  exact ⟨name, hname, by simp [getPropertyType, hRef, hType, hItems, hItemsRef, hname]⟩

/-- C2 amended, at `{"type": "array", "items": {"$ref": "#/definitions/Y"}}`. -/
theorem getPropertyType_array_of_ref_witness :
    ∃ name, extractRefName plainConverter "#/definitions/Y" = some name ∧
      getPropertyType plainConverter arrayOfRefProperty = some ("[]" ++ name) :=
  getPropertyType_array_of_ref plainConverter arrayOfRefProperty ⟨"#/definitions/Y"⟩
    (by decide) (by decide) (by decide) (by decide)

/-- C9 as stated fails: the text written for a property that only has a
composite inclusion is `object (allOf)`, not `object (composite)`. -/
theorem getPropertyType_composite_counterexample :
    compositeProperty.Ref = "" ∧ compositeProperty.Type_ ≠ "array" ∧
      compositeProperty.Format = "" ∧ compositeProperty.Properties.isNil = true ∧
      compositeProperty.AllOf ≠ [] ∧
      getPropertyType plainConverter compositeProperty = some "object (allOf)" ∧
      getPropertyType plainConverter compositeProperty ≠ some "object (composite)" := by
  refine ⟨by decide, by decide, by decide, by decide, ?_, by decide, by decide⟩
  simp [compositeProperty, Property.AllOf]

/-- C9, amended: a property with no reference, that is not an array, with no
format and no nested inline properties, and with a non-empty `AllOf`, is
rendered as the string `object (allOf)`. -/
theorem getPropertyType_composite (s : SwaggerMarkdown) (prop : Property)
    (hRef : prop.Ref = "") (hType : prop.Type_ ≠ "array") (hFormat : prop.Format = "")
    (hProps : prop.Properties.isNil = true) (hAllOf : prop.AllOf ≠ []) :
    getPropertyType s prop = some "object (allOf)" := by
  have hlen : 0 < prop.AllOf.length := List.length_pos.2 hAllOf
  simp [getPropertyType, hRef, hType, hFormat, hProps, hlen]

/-- C9 amended, at `{"type": "object", "allOf": [{"$ref": "#/definitions/B"}]}`. -/
theorem getPropertyType_composite_witness :
    getPropertyType plainConverter compositeProperty = some "object (allOf)" :=
  getPropertyType_composite plainConverter compositeProperty (by decide) (by decide)
    (by decide) (by decide) (by simp [compositeProperty, Property.AllOf])

/-- C10: for a property with no reference that is an array whose `Items` is
present without a reference, the code returns `[]` followed by the
property's own `Type`, that is always the text `[]array`; the type of the
elements is not part of the result. -/
theorem getPropertyType_array_no_ref (s : SwaggerMarkdown) (prop : Property)
    (items : Items) (hRef : prop.Ref = "") (hType : prop.Type_ = "array")
    (hItems : prop.Items = some items) (hItemsRef : items.Ref = "") :
    getPropertyType s prop = some "[]array" := by
  simp [getPropertyType, hRef, hType, hItems, hItemsRef]

/-- C10, at an array of strings: the result is `[]array`, not `[]string`. -/
theorem getPropertyType_array_no_ref_witness :
    getPropertyType plainConverter arrayOfStringProperty = some "[]array" :=
  getPropertyType_array_no_ref plainConverter arrayOfStringProperty ⟨""⟩
    (by decide) (by decide) (by decide) (by decide)

/-! ## Runs -/

theorem Run.seq_of_ok (a b : Run) (ha : a.status = .ok) :
    Run.seq a b = ⟨a.out ++ b.out, b.status⟩ := by
  simp [Run.seq, ha]

theorem Run.skip_seq (b : Run) : Run.seq Run.skip b = b := by
  simp [Run.seq, Run.skip]

theorem Run.seq_skip (a : Run) : Run.seq a Run.skip = a := by
  cases a with
  | mk out status => cases status <;> simp [Run.seq, Run.skip]

theorem Run.write_seq (t : String) (b : Run) :
    Run.seq (Run.write t) b = ⟨t :: b.out, b.status⟩ := by
  simp [Run.seq, Run.write]

theorem Run.seq_assoc (a b c : Run) :
    Run.seq (Run.seq a b) c = Run.seq a (Run.seq b c) := by
  cases a with
  | mk ao st =>
    cases b with
    | mk bo bt => cases st <;> cases bt <;> simp [Run.seq]

theorem Run.forEachFrom_append {α : Type} (body : Nat → α → Run) (i : Nat) (xs ys : List α) :
    Run.forEachFrom body i (xs ++ ys) =
      Run.seq (Run.forEachFrom body i xs) (Run.forEachFrom body (i + xs.length) ys) := by
  induction xs generalizing i with
  | nil => simp [Run.forEachFrom, Run.skip_seq]
  | cons x xs ih =>
    have harith : i + 1 + xs.length = i + (xs.length + 1) := by omega
    simp [Run.forEachFrom, ih, Run.seq_assoc, harith]

theorem Run.forEachFrom_reindex {α : Type} (body body' : Nat → α → Run) (i i' : Nat)
    (xs : List α) (h : ∀ k x, k < xs.length → body (i + k) x = body' (i' + k) x) :
    Run.forEachFrom body i xs = Run.forEachFrom body' i' xs := by
  induction xs generalizing i i' with
  | nil => rfl
  | cons x xs ih =>
    have h0 := h 0 x (by simp)
    have hrest := ih (i + 1) (i' + 1) fun k y hk => by
      have := h (k + 1) y (by simpa using hk)
      have e1 : i + 1 + k = i + (k + 1) := by omega
      have e2 : i' + 1 + k = i' + (k + 1) := by omega
      rw [e1, e2]; exact this
    simp only [Nat.add_zero] at h0
    simp [Run.forEachFrom, h0, hrest]

theorem Run.forEachFrom_status_ok {α : Type} (body : Nat → α → Run) (i : Nat) (xs : List α)
    (h : ∀ j, ∀ x ∈ xs, (body j x).status = .ok) :
    (Run.forEachFrom body i xs).status = .ok := by
  induction xs generalizing i with
  | nil => rfl
  | cons x xs ih =>
    have hx := h i x (List.mem_cons_self _ _)
    have hxs := ih (i + 1) fun j y hy => h j y (List.mem_cons_of_mem _ hy)
    simp [Run.forEachFrom, Run.seq_of_ok _ _ hx, hxs]

theorem Run.forEachFrom_skip {α : Type} (body : Nat → α → Run) (i : Nat) (xs : List α)
    (h : ∀ j, ∀ x ∈ xs, body j x = Run.skip) : Run.forEachFrom body i xs = Run.skip := by
  induction xs generalizing i with
  | nil => rfl
  | cons x xs ih =>
    simp [Run.forEachFrom, h i x (List.mem_cons_self _ _),
      ih (i + 1) fun j y hy => h j y (List.mem_cons_of_mem _ hy), Run.skip_seq]

/-! ## Orders of `range` -/

theorem RangeOrder.valid_sub (ρ : RangeOrder) (h : ρ.Valid) (i : Nat) : (ρ.sub i).Valid :=
  fun path α m => h (i :: path) α m

theorem RangeOrder.perm_range (ρ : RangeOrder) (h : ρ.Valid) {α : Type} (m : GoMap α) :
    (ρ.range m).Perm m := h [] α m

theorem RangeOrder.valid_listed : RangeOrder.listed.Valid := fun _ _ m => List.Perm.refl m

theorem RangeOrder.valid_reversed : RangeOrder.reversed.Valid :=
  fun _ _ m => List.reverse_perm m

theorem RangeOrder.valid_shift (ρ : RangeOrder) (h : ρ.Valid) (n : Nat) : (ρ.shift n).Valid := by
  intro path α m
  cases path with
  | nil => exact h [] α m
  | cons i rest => exact h ((i + n) :: rest) α m

theorem RangeOrder.valid_without (ρ : RangeOrder) (h : ρ.Valid) (n : Nat) :
    (ρ.without n).Valid := by
  intro path α m
  cases path with
  | nil => exact h [] α m
  | cons i rest => exact h ((if i < n then i else i + 1) :: rest) α m

theorem RangeOrder.mem_range (ρ : RangeOrder) (h : ρ.Valid) {α : Type} (m : GoMap α)
    (x : String × α) : x ∈ ρ.range m ↔ x ∈ m := (ρ.perm_range h m).mem_iff

/-! ## The parameter table -/

theorem getParamType_isSome (s : SwaggerMarkdown) (param : Parameter) :
    ∃ ty, getParamType s param = some ty := by
  unfold getParamType
  split
  · exact extractRefName_isSome s _
  · split
    · obtain ⟨n, hn⟩ := extractRefName_isSome s ‹Items›.Ref
      exact ⟨_, by rw [hn]; rfl⟩
    · exact ⟨_, rfl⟩

theorem writeParamPlain_status (s : SwaggerMarkdown) (param : Parameter) :
    (writeParamPlain s param).status = .ok := by
  obtain ⟨ty, hty⟩ := getParamType_isSome s param
  unfold writeParamPlain
  split
  · rfl
  · simp [hty, Run.withValue, Run.write]

/-- The rows written for the fields `props` of a referenced model `d`. -/
theorem writeParamFields_rows (s : SwaggerMarkdown) (required : List String)
    (props : GoMap Property) :
    let run := Run.forEach (fun (fp : String × Property) =>
      if mapGetBool s.IgnoredFields fp.1 then Run.skip
      else
        Run.withValue (getPropertyType s fp.2) fun fieldType =>
          Run.write (paramRow fp.1 fieldType
            (if contains s required fp.1 then "是" else "否") fp.2.Description)) props
    run.status = .ok ∧
      List.Forall₂ (fun (fp : String × Property) (row : String) =>
          ∃ ty, getPropertyType s fp.2 = some ty ∧
            row = "| " ++ fp.1 ++ " | `" ++ ty ++ "` | " ++
              (if fp.1 ∈ required then "是" else "否") ++ " | " ++ fp.2.Description ++ " |\n")
        (props.filter fun fp => !mapGetBool s.IgnoredFields fp.1) run.out := by
  induction props with
  | nil => exact ⟨rfl, by simp [Run.forEach, Run.skip]⟩
  | cons fp rest ih =>
    obtain ⟨hst, hrows⟩ := ih
    by_cases hig : mapGetBool s.IgnoredFields fp.1 = true
    · simp only [Run.forEach, hig, if_true, Run.skip_seq]
      refine ⟨hst, ?_⟩
      simpa [List.filter, hig] using hrows
    · obtain ⟨ty, hty⟩ := getPropertyType_isSome s fp.2
      have hf : mapGetBool s.IgnoredFields fp.1 = false := by simpa using hig
      rw [Run.forEach]
      simp only [hf, hty, Run.withValue, Bool.false_eq_true, if_false, Run.write_seq]
      refine ⟨hst, ?_⟩
      simp only [List.filter_cons, hf, Bool.not_false, if_true]
      refine List.Forall₂.cons ⟨ty, hty, ?_⟩ hrows
      by_cases hreq : fp.1 ∈ required
      · rw [if_pos hreq, if_pos ((contains_iff s required fp.1).2 hreq)]
        rfl
      · have : contains s required fp.1 = false := by
          cases hc : contains s required fp.1
          · rfl
          · exact absurd ((contains_iff s required fp.1).1 hc) hreq
        rw [if_neg hreq, this]
        rfl

theorem writeParam_status (s : SwaggerMarkdown) (ρ : RangeOrder) (defs : GoMap Definition)
    (param : Parameter) : (writeParam s ρ defs param).status = .ok := by
  unfold writeParam
  split
  · obtain ⟨n, hn⟩ := extractRefName_isSome s param.Schema.Ref
    simp only [hn, Run.withValue]
    split
    · exact (writeParamFields_rows s _ _).1
    · exact writeParamPlain_status s param
  · exact writeParamPlain_status s param

theorem writeParamsFrom_status (s : SwaggerMarkdown) (ρ : RangeOrder) (defs : GoMap Definition)
    (i : Nat) (params : List Parameter) :
    (Run.forEachFrom (fun (i : Nat) (param : Parameter) => writeParam s (ρ.sub i) defs param)
      i params).status = .ok :=
  Run.forEachFrom_status_ok _ _ _ fun j p _ => writeParam_status s (ρ.sub j) defs p

theorem writeParams_status (s : SwaggerMarkdown) (ρ : RangeOrder) (defs : GoMap Definition)
    (params : List Parameter) : (writeParams s ρ defs params).status = .ok :=
  writeParamsFrom_status s ρ defs 0 params

theorem writeParams_shift (s : SwaggerMarkdown) (ρ : RangeOrder) (defs : GoMap Definition)
    (n : Nat) (params : List Parameter) :
    writeParams s (ρ.shift n) defs params =
      Run.forEachFrom (fun (i : Nat) (param : Parameter) => writeParam s (ρ.sub i) defs param)
        n params := by
  unfold writeParams
  exact Run.forEachFrom_reindex _ _ 0 n params fun k x _ => by
    simp only [Nat.zero_add, Nat.add_comm n k]
    rfl

/-- The rows of a parameter list are the rows of its first part followed by
the rows of the rest. -/
theorem writeParams_append_out (s : SwaggerMarkdown) (ρ : RangeOrder) (defs : GoMap Definition)
    (ps qs : List Parameter) :
    (writeParams s ρ defs (ps ++ qs)).out =
      (writeParams s ρ defs ps).out ++ (writeParams s (ρ.shift ps.length) defs qs).out := by
  have hps := writeParams_status s ρ defs ps
  rw [writeParams_shift]
  unfold writeParams at hps ⊢
  rw [Run.forEachFrom_append, Run.seq_of_ok _ _ hps, Nat.zero_add]

/-- The rows of a parameter list without its parameter number `ps.length`,
when the others enumerate their models as they do in the full list. -/
theorem writeParams_without_out (s : SwaggerMarkdown) (ρ : RangeOrder)
    (defs : GoMap Definition) (ps qs : List Parameter) :
    (writeParams s (ρ.without ps.length) defs (ps ++ qs)).out =
      (writeParams s ρ defs ps).out ++
        (writeParams s (ρ.shift (ps.length + 1)) defs qs).out := by
  have hps := writeParams_status s ρ defs ps
  have h1 : Run.forEachFrom
      (fun (i : Nat) (param : Parameter) => writeParam s ((ρ.without ps.length).sub i) defs param)
      0 ps = writeParams s ρ defs ps := by
    unfold writeParams
    exact Run.forEachFrom_reindex _ _ 0 0 ps fun k x hk => by
      have hlt : 0 + k < ps.length := by omega
      show writeParam s ⟨fun path => ρ.order
        ((if 0 + k < ps.length then 0 + k else 0 + k + 1) :: path)⟩ defs x = _
      rw [if_pos hlt]
      rfl
  have h2 : Run.forEachFrom
      (fun (i : Nat) (param : Parameter) => writeParam s ((ρ.without ps.length).sub i) defs param)
      (0 + ps.length) qs = writeParams s (ρ.shift (ps.length + 1)) defs qs := by
    rw [writeParams_shift]
    exact Run.forEachFrom_reindex _ _ _ _ qs fun k x _ => by
      have hge : ¬ (0 + ps.length + k < ps.length) := by omega
      show writeParam s ⟨fun path => ρ.order
        ((if 0 + ps.length + k < ps.length then 0 + ps.length + k
          else 0 + ps.length + k + 1) :: path)⟩ defs x = _
      rw [if_neg hge]
      have e : 0 + ps.length + k + 1 = ps.length + 1 + k := by omega
      rw [e]
      rfl
  have hrun : writeParams s (ρ.without ps.length) defs (ps ++ qs) =
      Run.seq (writeParams s ρ defs ps)
        (writeParams s (ρ.shift (ps.length + 1)) defs qs) := by
    rw [← h1, ← h2]
    unfold writeParams
    exact Run.forEachFrom_append _ 0 ps qs
  rw [hrun, Run.seq_of_ok _ _ hps]

/-- C7: a parameter whose schema reference resolves to a model `d` gets one
row per field of `d` that is not ignored, in the order in which the fields
are enumerated, and nothing else. The row of a field is
`| name | type | flag | description |` with `getPropertyType` of the field
as the type and the flag `是` exactly when the name is in `d.Required`. For
`UserRegister` and the ignore-set `_app_id` the table is the row of `name`,
in either order of enumeration. -/
theorem writeParam_of_resolved (s : SwaggerMarkdown) (ρ : RangeOrder) (defs : GoMap Definition)
    (param : Parameter) (refName : String) (d : Definition)
    (hRef : param.Schema.Ref ≠ "")
    (hName : extractRefName s param.Schema.Ref = some refName)
    (hDef : mapGet defs refName = some d) :
    (writeParam s ρ defs param).status = .ok ∧
      List.Forall₂ (fun (fp : String × Property) (row : String) =>
          ∃ ty, getPropertyType s fp.2 = some ty ∧
            row = "| " ++ fp.1 ++ " | `" ++ ty ++ "` | " ++
              (if fp.1 ∈ d.Required then "是" else "否") ++ " | " ++ fp.2.Description ++ " |\n")
        ((ρ.range d.Properties).filter fun fp => !mapGetBool s.IgnoredFields fp.1)
        (writeParam s ρ defs param).out ∧
      (ρ.Valid → (ρ.range d.Properties).Perm d.Properties) ∧
      writeParams appIdConverter RangeOrder.listed [("UserRegister", userRegister)]
          [bodyParam "#/definitions/UserRegister"] =
        ⟨["| name | `string` | 是 |  |\n"], .ok⟩ ∧
      writeParams appIdConverter RangeOrder.reversed [("UserRegister", userRegister)]
          [bodyParam "#/definitions/UserRegister"] =
        ⟨["| name | `string` | 是 |  |\n"], .ok⟩ ∧
      writeParams appIdConverter RangeOrder.listed [("UserRegister", userRegisterSwapped)]
          [bodyParam "#/definitions/UserRegister"] =
        ⟨["| name | `string` | 是 |  |\n"], .ok⟩ ∧
      writeParams appIdConverter RangeOrder.listed [("UserRegister", userDescribed)]
          [bodyParam "#/definitions/UserRegister"] =
        ⟨["| name | `string` | 是 | user name |\n"], .ok⟩ ∧
      writeParams plainConverter RangeOrder.listed [("UserRegister", userDescribed)]
          [bodyParam "#/definitions/UserRegister"] =
        ⟨["| name | `string` | 是 | user name |\n", "| _app_id | `string` | 否 | app |\n"],
          .ok⟩ ∧
      writeParams plainConverter RangeOrder.reversed [("UserRegister", userDescribed)]
          [bodyParam "#/definitions/UserRegister"] =
        ⟨["| _app_id | `string` | 否 | app |\n", "| name | `string` | 是 | user name |\n"],
          .ok⟩ := by
  have hrun : writeParam s ρ defs param = writeParamFields s ρ d := by
    simp [writeParam, hRef, hName, hDef, Run.withValue]
  rw [hrun]
  exact ⟨(writeParamFields_rows s d.Required (ρ.range d.Properties)).1,
    (writeParamFields_rows s d.Required (ρ.range d.Properties)).2,
    fun hv => ρ.perm_range hv d.Properties,
    by decide, by decide, by decide, by decide, by decide, by decide⟩

/-- C7, at the body parameter of `/api/user/register` with described fields. -/
theorem writeParam_of_resolved_witness :
    (writeParam appIdConverter RangeOrder.listed [("UserRegister", userDescribed)]
        (bodyParam "#/definitions/UserRegister")).status = .ok ∧
      List.Forall₂ (fun (fp : String × Property) (row : String) =>
          ∃ ty, getPropertyType appIdConverter fp.2 = some ty ∧
            row = "| " ++ fp.1 ++ " | `" ++ ty ++ "` | " ++
              (if fp.1 ∈ userDescribed.Required then "是" else "否") ++ " | " ++
              fp.2.Description ++ " |\n")
        ((RangeOrder.listed.range userDescribed.Properties).filter
          fun fp => !mapGetBool appIdConverter.IgnoredFields fp.1)
        (writeParam appIdConverter RangeOrder.listed [("UserRegister", userDescribed)]
          (bodyParam "#/definitions/UserRegister")).out :=
  ⟨(writeParam_of_resolved appIdConverter RangeOrder.listed [("UserRegister", userDescribed)]
      (bodyParam "#/definitions/UserRegister") "UserRegister" userDescribed
      (by decide) (by decide) rfl).1,
   (writeParam_of_resolved appIdConverter RangeOrder.listed [("UserRegister", userDescribed)]
      (bodyParam "#/definitions/UserRegister") "UserRegister" userDescribed
      (by decide) (by decide) rfl).2.1⟩

/-- C5 as stated fails: a parameter named `body` whose schema names the
missing model `Ghost` does get a row, with `Ghost` as its type. -/
theorem writeParam_ghost_counterexample :
    (bodyParam "#/definitions/Ghost").Schema.Ref ≠ "" ∧
      extractRefName plainConverter "#/definitions/Ghost" = some "Ghost" ∧
      mapGet [("UserRegister", userRegister)] "Ghost" = none ∧
      writeParam plainConverter RangeOrder.listed [("UserRegister", userRegister)]
          (bodyParam "#/definitions/Ghost") =
        ⟨["| body | `Ghost` | 否 |  |\n"], .ok⟩ ∧
      (writeParam plainConverter RangeOrder.listed [("UserRegister", userRegister)]
          (bodyParam "#/definitions/Ghost")).out ≠ [] :=
  ⟨by decide, by decide, rfl, by decide, by decide⟩

/-- C5, amended: a parameter whose schema reference names a model that is not
in the definitions table is written like an ordinary parameter: no row when
its name is ignored, otherwise one row with the referenced name as its type;
rendering does not fail, and the rows of the other parameters are the same as
if that parameter were not in the list (the run without the parameter that
enumerates the models of the others as the full run does, `ρ.without`, writes
the rows before it followed by the rows after it). The required parameter
`filter` that refers to `Ghost` gets the row
`| filter | Ghost | 是 | the filter |`. -/
theorem writeParam_of_unresolved (s : SwaggerMarkdown) (ρ : RangeOrder)
    (defs : GoMap Definition) (param : Parameter) (refName : String)
    (hRef : param.Schema.Ref ≠ "")
    (hName : extractRefName s param.Schema.Ref = some refName)
    (hDef : mapGet defs refName = none) :
    writeParam s ρ defs param =
        (if mapGetBool s.IgnoredFields param.Name = true then Run.skip
         else Run.write ("| " ++ param.Name ++ " | `" ++ refName ++ "` | " ++
            (if param.Required = true then "是" else "否") ++ " | " ++
            param.Description ++ " |\n")) ∧
      writeParam plainConverter RangeOrder.listed [("UserRegister", userRegister)] ghostParam =
        ⟨["| filter | `Ghost` | 是 | the filter |\n"], .ok⟩ ∧
      ∀ before after : List Parameter,
        (writeParams s ρ defs (before ++ param :: after)).status = .ok ∧
        (writeParams s (ρ.without before.length) defs (before ++ after)).status = .ok ∧
        (writeParams s ρ defs (before ++ param :: after)).out =
          (writeParams s ρ defs before).out ++
            (writeParam s (ρ.sub before.length) defs param).out ++
            (writeParams s (ρ.shift (before.length + 1)) defs after).out ∧
        (writeParams s (ρ.without before.length) defs (before ++ after)).out =
          (writeParams s ρ defs before).out ++
            (writeParams s (ρ.shift (before.length + 1)) defs after).out ∧
        (ρ.Valid → (ρ.without before.length).Valid ∧ (ρ.shift (before.length + 1)).Valid) ∧
        RangeOrder.listed.without before.length = RangeOrder.listed ∧
        RangeOrder.listed.shift (before.length + 1) = RangeOrder.listed := by
  refine ⟨?_, by decide, fun before after => ⟨writeParams_status _ _ _ _,
    writeParams_status _ _ _ _, ?_, writeParams_without_out _ _ _ _ _,
    fun hv => ⟨ρ.valid_without hv _, ρ.valid_shift hv _⟩, ?_, ?_⟩⟩
  · simp only [writeParam, hRef, hName, hDef, Run.withValue, writeParamPlain, getParamType,
      paramRow]
    split <;> simp_all
  · have hcons : param :: after = [param] ++ after := rfl
    rw [hcons, ← List.append_assoc, writeParams_append_out, writeParams_append_out]
    have hone : (writeParams s (ρ.shift before.length) defs [param]).out =
        (writeParam s (ρ.sub before.length) defs param).out := by
      rw [writeParams_shift]
      simp [Run.forEachFrom, Run.seq_skip]
    rw [hone]
    simp
  · unfold RangeOrder.without RangeOrder.listed
    congr 1
    funext path
    cases path <;> rfl
  · unfold RangeOrder.shift RangeOrder.listed
    congr 1
    funext path
    cases path <;> rfl

/-- C5 amended, at a `Ghost` parameter between two query parameters. -/
theorem writeParam_of_unresolved_witness :
    writeParam plainConverter RangeOrder.listed [("UserRegister", userRegister)]
        (bodyParam "#/definitions/Ghost") =
      Run.write "| body | `Ghost` | 否 |  |\n" ∧
    (writeParams plainConverter RangeOrder.listed [("UserRegister", userRegister)]
        ([queryParam "a"] ++ bodyParam "#/definitions/Ghost" :: [queryParam "b"])).out =
      (writeParams plainConverter RangeOrder.listed [("UserRegister", userRegister)]
          [queryParam "a"]).out ++
        (writeParam plainConverter (RangeOrder.listed.sub [queryParam "a"].length)
          [("UserRegister", userRegister)] (bodyParam "#/definitions/Ghost")).out ++
        (writeParams plainConverter (RangeOrder.listed.shift ([queryParam "a"].length + 1))
          [("UserRegister", userRegister)] [queryParam "b"]).out :=
  ⟨(writeParam_of_unresolved plainConverter RangeOrder.listed [("UserRegister", userRegister)]
      (bodyParam "#/definitions/Ghost") "Ghost" (by decide) (by decide) rfl).1,
   ((writeParam_of_unresolved plainConverter RangeOrder.listed [("UserRegister", userRegister)]
      (bodyParam "#/definitions/Ghost") "Ghost" (by decide) (by decide) rfl).2.2
        [queryParam "a"] [queryParam "b"]).2.2.1⟩

/-! ## Field tables -/

/-- C4: the field tables of a response schema are written without reading the
ignore-set. With `_app_id` ignored, the table of the response model and the
table of its inline object `data` both have the row of `_app_id`, while the
parameter table of the same model leaves it out. -/
theorem writeResponseSchema_ignored_field_row :
    mapGetBool appIdConverter.IgnoredFields "_app_id" = true ∧
      writeResponseSchema appIdConverter RangeOrder.listed 2
          ⟨"#/definitions/Resp", "", none, []⟩ [("Resp", respModel)] =
        ⟨[fieldTableHeader, fieldTableRule,
          "| _app_id | `string` |  |\n", "| data | `object` |  |\n", "\n",
          "**data 结构详情**:\n\n", fieldTableHeader, fieldTableRule,
          "| _app_id | `string` |  |\n"], .ok⟩ ∧
      fieldRow "_app_id" "string" "" ∈
        (writeResponseSchema appIdConverter RangeOrder.listed 2
          ⟨"#/definitions/Resp", "", none, []⟩ [("Resp", respModel)]).out ∧
      fieldRow "_app_id" "string" "" ∈
        (writeResponseSchema appIdConverter RangeOrder.reversed 2
          ⟨"#/definitions/Resp", "", none, []⟩ [("Resp", respModel)]).out ∧
      writeParamFields appIdConverter RangeOrder.listed respModel =
        ⟨["| data | `object` | 否 |  |\n"], .ok⟩ ∧
      writeParamFields appIdConverter RangeOrder.reversed respModel =
        ⟨["| data | `object` | 否 |  |\n"], .ok⟩ := by
  refine ⟨by decide, by decide, by decide, by decide, by decide, by decide⟩

theorem forEach_writeFieldRow (s : SwaggerMarkdown) (props : GoMap Property) :
    (Run.forEach (writeFieldRow s) props).status = .ok ∧
      List.Forall₂ (IsFieldRow s) props (Run.forEach (writeFieldRow s) props).out := by
  induction props with
  | nil => exact ⟨rfl, by simp [Run.forEach, Run.skip]⟩
  | cons fp rest ih =>
    obtain ⟨ty, hty⟩ := getPropertyType_isSome s fp.2
    rw [Run.forEach]
    simp only [writeFieldRow, hty, Run.withValue, Run.write_seq]
    exact ⟨ih.1, List.Forall₂.cons ⟨ty, hty, rfl⟩ ih.2⟩

theorem definitionNestedStep_of_flat (s : SwaggerMarkdown) (ρ : RangeOrder)
    (defs : GoMap Definition) (recDef : RangeOrder → Definition → Run)
    (recNested : RangeOrder → GoMap JSON → Run) (fp : String × Property)
    (h : fp.2.flat = true) : definitionNestedStep s ρ defs recDef recNested fp = Run.skip := by
  simp only [Property.flat, Bool.and_eq_true, beq_iff_eq, List.isEmpty_iff] at h
  obtain ⟨⟨⟨hprops, href⟩, hallof⟩, hitems⟩ := h
  have h1 : (match fp.2.Properties with
      | .obj nestedProps =>
        Run.seq (Run.write (detailTitle fp.1)) (recNested (ρ.sub 0) nestedProps)
      | _ => Run.skip) = Run.skip := by
    cases hp : fp.2.Properties <;> simp_all
  have h4 : (match (if fp.2.Type_ = "array" then fp.2.Items else none) with
      | some items =>
        if items.Ref ≠ "" then
          withDefinition s defs items.Ref fun _ df =>
            Run.seq (Run.write (arrayTitle fp.1)) (recDef (ρ.sub 3) df)
        else Run.skip
      | none => Run.skip) = Run.skip := by
    cases hi : (if fp.2.Type_ = "array" then fp.2.Items else none) <;> simp_all
  unfold definitionNestedStep
  rw [h1, h4]
  simp [href, hallof, Run.forEachFrom, Run.skip_seq]

theorem fieldTable_run (s : SwaggerMarkdown) (props : GoMap Property) :
    Run.seq (Run.write fieldTableHeader)
        (Run.seq (Run.write fieldTableRule)
          (Run.seq (Run.forEach (writeFieldRow s) props)
            (Run.seq (Run.write "\n") Run.skip))) =
      ⟨fieldTableHeader :: fieldTableRule ::
        ((Run.forEach (writeFieldRow s) props).out ++ ["\n"]), .ok⟩ := by
  rw [Run.seq_skip, Run.write_seq, Run.write_seq,
    Run.seq_of_ok _ _ (forEach_writeFieldRow s props).1]
  rfl

/-- The loop over the nested structures of flat fields writes nothing. -/
theorem nestedLoop_of_flat (s : SwaggerMarkdown) (ρ : RangeOrder) (hρ : ρ.Valid)
    (defs : GoMap Definition) (recDef : RangeOrder → Definition → Run)
    (recNested : RangeOrder → GoMap JSON → Run) (props : GoMap Property)
    (hflat : ∀ fp ∈ props, fp.2.flat = true) :
    Run.forEachFrom
      (fun (j : Nat) (fp : String × Property) =>
        definitionNestedStep s ((ρ.sub 2).sub j) defs recDef recNested fp)
      0 ((ρ.sub 2).range props) = Run.skip :=
  Run.forEachFrom_skip _ _ _ fun _ fp hfp =>
    definitionNestedStep_of_flat s _ defs _ _ fp
      (hflat fp (((ρ.sub 2).mem_range (ρ.valid_sub hρ 2) props fp).1 hfp))

/-- A model without composite inclusions whose fields are all flat is written
as one table: header, rule, one row per field, blank line. -/
theorem writeDefinitionFields_of_flat (s : SwaggerMarkdown) (ρ : RangeOrder) (hρ : ρ.Valid)
    (fuel : Nat) (d : Definition)
    (defs : GoMap Definition) (hAllOf : d.AllOf = []) (hne : d.Properties ≠ [])
    (hflat : ∀ fp ∈ d.Properties, fp.2.flat = true) :
    writeDefinitionFields s ρ (fuel + 1) d defs =
      ⟨fieldTableHeader :: fieldTableRule ::
        ((Run.forEach (writeFieldRow s) ((ρ.sub 1).range d.Properties)).out ++ ["\n"]),
        .ok⟩ := by
  have hlen : 0 < d.Properties.length := List.length_pos.2 hne
  rw [writeDefinitionFields, hAllOf, nestedLoop_of_flat s ρ hρ defs _ _ d.Properties hflat,
    if_pos hlen, fieldTable_run]
  exact Run.skip_seq _

/-- C8 as stated fails. For `B = {x: int}` and `A` with its own `y: string`
the output has two tables (two header lines), the table of `B` and then the
table of `A`, not one merged table; and when the own field `y` of `A` is
itself a reference to `B`, the row of `x` is written twice. -/
theorem writeDefinitionFields_merged_counterexample :
    writeDefinitionFields plainConverter RangeOrder.listed 2 modelA
          [("A", modelA), ("B", modelB)] =
        ⟨[fieldTableHeader, fieldTableRule, "| x | `int` |  |\n", "\n",
          fieldTableHeader, fieldTableRule, "| y | `string` |  |\n", "\n"], .ok⟩ ∧
      (writeDefinitionFields plainConverter RangeOrder.listed 2 modelA
        [("A", modelA), ("B", modelB)]).out.count fieldTableHeader = 2 ∧
      (writeDefinitionFields plainConverter RangeOrder.listed 2 modelARef
        [("A", modelARef), ("B", modelB)]).status = .ok ∧
      (writeDefinitionFields plainConverter RangeOrder.listed 2 modelARef
        [("A", modelARef), ("B", modelB)]).out.count (fieldRow "x" "int" "") = 2 := by
  refine ⟨by decide, by decide, by decide, by decide⟩

/-- C8, amended: when `A` has own fields and exactly one composite inclusion,
a reference to a model `B` that has fields and no composite inclusion of its
own, and no field of `A` or `B` is expanded below its table, then
`writeDefinitionFields` writes two tables, the table of `B` followed by the
table of `A`, each with its own header, and every field of `B` and of `A` is
one row in its table, in the order in which the fields of that model are
enumerated there; for `B = {x: int}` and `y: string` these are the row of `x`
in the first table and the row of `y` in the second. -/
theorem writeDefinitionFields_allOf_ref (s : SwaggerMarkdown) (ρ : RangeOrder)
    (hρ : ρ.Valid) (fuel : Nat)
    (a b : Definition) (item : AllOfItem) (refName : String) (defs : GoMap Definition)
    (hAllOf : a.AllOf = [item]) (hRef : item.Ref ≠ "")
    (hName : extractRefName s item.Ref = some refName)
    (hB : mapGet defs refName = some b) (hBAllOf : b.AllOf = [])
    (hBne : b.Properties ≠ []) (hAne : a.Properties ≠ [])
    (hBflat : ∀ fp ∈ b.Properties, fp.2.flat = true)
    (hAflat : ∀ fp ∈ a.Properties, fp.2.flat = true) :
    (writeDefinitionFields s ρ (fuel + 2) a defs).status = .ok ∧
      (∃ rowsB rowsA : List String,
        List.Forall₂ (IsFieldRow s) ((((ρ.sub 0).sub 0).sub 1).range b.Properties) rowsB ∧
        List.Forall₂ (IsFieldRow s) ((ρ.sub 1).range a.Properties) rowsA ∧
        (writeDefinitionFields s ρ (fuel + 2) a defs).out =
          (fieldTableHeader :: fieldTableRule :: (rowsB ++ ["\n"])) ++
            (fieldTableHeader :: fieldTableRule :: (rowsA ++ ["\n"]))) ∧
      ((((ρ.sub 0).sub 0).sub 1).range b.Properties).Perm b.Properties ∧
      ((ρ.sub 1).range a.Properties).Perm a.Properties ∧
      writeDefinitionFields plainConverter RangeOrder.listed 2 modelA
          [("A", modelA), ("B", modelB)] =
        ⟨[fieldTableHeader, fieldTableRule, "| x | `int` |  |\n", "\n",
          fieldTableHeader, fieldTableRule, "| y | `string` |  |\n", "\n"], .ok⟩ := by
  have hlen : 0 < a.Properties.length := List.length_pos.2 hAne
  have hρB : ((ρ.sub 0).sub 0).Valid := (ρ.sub 0).valid_sub (ρ.valid_sub hρ 0) 0
  have hrun : writeDefinitionFields s ρ (fuel + 2) a defs =
      ⟨(fieldTableHeader :: fieldTableRule ::
          ((Run.forEach (writeFieldRow s)
            ((((ρ.sub 0).sub 0).sub 1).range b.Properties)).out ++ ["\n"])) ++
        (fieldTableHeader :: fieldTableRule ::
          ((Run.forEach (writeFieldRow s) ((ρ.sub 1).range a.Properties)).out ++ ["\n"])),
        .ok⟩ := by
    have hstep : definitionAllOfStep s ((ρ.sub 0).sub 0) defs
        (fun ρ' nestedDef => writeDefinitionFields s ρ' (fuel + 1) nestedDef defs) item =
        writeDefinitionFields s ((ρ.sub 0).sub 0) (fuel + 1) b defs := by
      simp [definitionAllOfStep, hRef, withDefinition, hName, hB, Run.withValue]
    rw [writeDefinitionFields, hAllOf,
      nestedLoop_of_flat s ρ hρ defs _ _ a.Properties hAflat, if_pos hlen, fieldTable_run,
      Run.forEachFrom, Run.forEachFrom, Run.seq_skip, hstep,
      writeDefinitionFields_of_flat s _ hρB fuel b defs hBAllOf hBne hBflat]
    rfl
  rw [hrun]
  exact ⟨rfl, ⟨_, _, (forEach_writeFieldRow s _).2, (forEach_writeFieldRow s _).2, rfl⟩,
    RangeOrder.perm_range _ (RangeOrder.valid_sub _ hρB 1) _,
    RangeOrder.perm_range _ (ρ.valid_sub hρ 1) _, by decide⟩

/-- C8 amended, at `A` and `B` of the example. -/
theorem writeDefinitionFields_allOf_ref_witness :
    (writeDefinitionFields plainConverter RangeOrder.listed 2 modelA
        [("A", modelA), ("B", modelB)]).status = .ok ∧
      ∃ rowsB rowsA : List String,
        List.Forall₂ (IsFieldRow plainConverter)
          ((((RangeOrder.listed.sub 0).sub 0).sub 1).range modelB.Properties) rowsB ∧
        List.Forall₂ (IsFieldRow plainConverter)
          ((RangeOrder.listed.sub 1).range modelA.Properties) rowsA ∧
        (writeDefinitionFields plainConverter RangeOrder.listed 2 modelA
            [("A", modelA), ("B", modelB)]).out =
          (fieldTableHeader :: fieldTableRule :: (rowsB ++ ["\n"])) ++
            (fieldTableHeader :: fieldTableRule :: (rowsA ++ ["\n"])) :=
  ⟨(writeDefinitionFields_allOf_ref plainConverter RangeOrder.listed RangeOrder.valid_listed
      0 modelA modelB
      (.mk "#/definitions/B" "" none) "B" [("A", modelA), ("B", modelB)]
      rfl (by decide) (by decide) rfl rfl (by simp [modelB]) (by simp [modelA])
      (by simp [modelB, Property.flat, Property.ofType, Property.Properties, Property.Ref,
        Property.AllOf, Property.Type_, Property.Items])
      (by simp [modelA, Property.flat, Property.ofType, Property.Properties, Property.Ref,
        Property.AllOf, Property.Type_, Property.Items])).1,
   (writeDefinitionFields_allOf_ref plainConverter RangeOrder.listed RangeOrder.valid_listed
      0 modelA modelB
      (.mk "#/definitions/B" "" none) "B" [("A", modelA), ("B", modelB)]
      rfl (by decide) (by decide) rfl rfl (by simp [modelB]) (by simp [modelA])
      (by simp [modelB, Property.flat, Property.ofType, Property.Properties, Property.Ref,
        Property.AllOf, Property.Type_, Property.Items])
      (by simp [modelA, Property.flat, Property.ofType, Property.Properties, Property.Ref,
        Property.AllOf, Property.Type_, Property.Items])).2.1⟩

/-! ## The order of the endpoints -/

theorem strLtChars_asymm (a b : List Char) (h : strLtChars a b = true) :
    strLtChars b a = false := by
  induction a generalizing b with
  | nil => cases b <;> simp_all [strLtChars]
  | cons x xs ih =>
    cases b with
    | nil => simp_all [strLtChars]
    | cons y ys =>
      simp only [strLtChars] at h ⊢
      split_ifs at h ⊢
      all_goals first | omega | rfl | exact ih ys h

theorem strLtChars_negtrans (a b c : List Char) (hab : strLtChars a b = false)
    (hbc : strLtChars b c = false) : strLtChars a c = false := by
  induction a generalizing b c with
  | nil =>
    cases b with
    | nil => exact hbc
    | cons y ys => simp [strLtChars] at hab
  | cons x xs ih =>
    cases b with
    | nil => cases c <;> simp_all [strLtChars]
    | cons y ys =>
      cases c with
      | nil => simp [strLtChars]
      | cons z zs =>
        simp only [strLtChars] at hab hbc ⊢
        split_ifs at hab hbc ⊢
        all_goals first | omega | rfl | exact ih ys zs hab hbc

/-- The comparison of `writePaths` is asymmetric. -/
theorem pathLess_asymm (s : SwaggerMarkdown) (a b : pathItem)
    (h : pathLess s a b = true) : pathLess s b a = false := by
  unfold pathLess at h ⊢
  cases ha : mapGet s.CustomOrder a.path <;> cases hb : mapGet s.CustomOrder b.path <;>
    simp_all
  · exact strLtChars_asymm _ _ h
  · omega

/-- Not being less is transitive for the comparison of `writePaths`. -/
theorem pathLess_negtrans (s : SwaggerMarkdown) (a b c : pathItem)
    (hab : pathLess s a b = false) (hbc : pathLess s b c = false) :
    pathLess s a c = false := by
  unfold pathLess at hab hbc ⊢
  cases ha : mapGet s.CustomOrder a.path <;> cases hb : mapGet s.CustomOrder b.path <;>
    cases hc : mapGet s.CustomOrder c.path <;> simp_all
  · exact strLtChars_negtrans _ _ _ hab hbc
  · omega

theorem insertFromRight_perm {α : Type} (less : α → α → Bool) (x : α) (l : List α) :
    (insertFromRight less x l).Perm (x :: l) := by
  induction l with
  | nil => exact List.Perm.refl _
  | cons p ps ih =>
    unfold insertFromRight
    split
    · exact (List.Perm.cons p ih).trans (List.Perm.swap x p ps)
    · exact List.Perm.refl _

theorem insertFromRight_pairwise {α : Type} (less : α → α → Bool)
    (hasymm : ∀ a b, less a b = true → less b a = false)
    (hneg : ∀ a b c, less a b = false → less b c = false → less a c = false)
    (x : α) (l : List α) (hl : l.Pairwise fun a b => less a b = false) :
    (insertFromRight less x l).Pairwise fun a b => less a b = false := by
  induction l with
  | nil => simp [insertFromRight]
  | cons p ps ih =>
    obtain ⟨hp, hps⟩ := List.pairwise_cons.1 hl
    unfold insertFromRight
    split
    · rename_i hlt
      refine List.pairwise_cons.2 ⟨fun y hy => ?_, ih hps⟩
      rcases List.mem_cons.1 ((insertFromRight_perm less x ps).subset hy) with rfl | hy
      · exact hasymm _ _ hlt
      · exact hp y hy
    · rename_i hlt
      have hxp : less x p = false := by simpa using hlt
      refine List.pairwise_cons.2 ⟨fun y hy => ?_, hl⟩
      rcases List.mem_cons.1 hy with rfl | hy
      · exact hxp
      · exact hneg _ _ _ hxp (hp y hy)

theorem sortSlice_fold_perm {α : Type} (less : α → α → Bool) (xs acc : List α) :
    (xs.foldl (fun acc x => insertFromRight less x acc) acc).Perm (xs.reverse ++ acc) := by
  induction xs generalizing acc with
  | nil => exact List.Perm.refl _
  | cons x xs ih =>
    rw [List.foldl_cons, List.reverse_cons, List.append_assoc]
    exact (ih _).trans (List.Perm.append_left _ (insertFromRight_perm less x acc))

/-- The sorted slice is a permutation of the slice. -/
theorem sortSlice_perm {α : Type} (less : α → α → Bool) (xs : List α) :
    (sortSlice less xs).Perm xs := by
  unfold sortSlice
  refine (List.reverse_perm _).trans ((sortSlice_fold_perm less xs []).trans ?_)
  rw [List.append_nil]
  exact List.reverse_perm xs

theorem sortSlice_fold_pairwise {α : Type} (less : α → α → Bool)
    (hasymm : ∀ a b, less a b = true → less b a = false)
    (hneg : ∀ a b c, less a b = false → less b c = false → less a c = false)
    (xs acc : List α) (hacc : acc.Pairwise fun a b => less a b = false) :
    (xs.foldl (fun acc x => insertFromRight less x acc) acc).Pairwise
      fun a b => less a b = false := by
  induction xs generalizing acc with
  | nil => exact hacc
  | cons x xs ih =>
    exact ih _ (insertFromRight_pairwise less hasymm hneg x acc hacc)

/-- The sorted slice has no inversion: no element is less than an earlier
one. -/
theorem sortSlice_pairwise {α : Type} (less : α → α → Bool)
    (hasymm : ∀ a b, less a b = true → less b a = false)
    (hneg : ∀ a b c, less a b = false → less b c = false → less a c = false)
    (xs : List α) : (sortSlice less xs).Pairwise fun a b => less b a = false := by
  unfold sortSlice
  rw [List.pairwise_reverse]
  exact sortSlice_fold_pairwise less hasymm hneg xs [] List.Pairwise.nil

/-- C3: in the list sorted by `writePaths`, no endpoint without a priority
comes before one with a priority, the priorities of the endpoints that have
one are non-decreasing, and the paths of those that have none are in
non-decreasing lexical order; three endpoints `a` (priority 2), `b`
(priority 1) and `c` (no priority), collected in any order, come out as
`b, a, c`. -/
theorem sortSlice_pathLess_order (s : SwaggerMarkdown) (pathList : List pathItem) :
    (sortSlice (pathLess s) pathList).Pairwise (fun x y =>
        mapGet s.CustomOrder y.path ≠ none → mapGet s.CustomOrder x.path ≠ none) ∧
      (sortSlice (pathLess s) pathList).Pairwise (fun x y =>
        ∀ px py : Int, mapGet s.CustomOrder x.path = some px →
          mapGet s.CustomOrder y.path = some py → px ≤ py) ∧
      (sortSlice (pathLess s) pathList).Pairwise (fun x y =>
        mapGet s.CustomOrder x.path = none → mapGet s.CustomOrder y.path = none →
          strLt y.path x.path = false) ∧
      ∀ a b c : pathItem, mapGet s.CustomOrder a.path = some 2 →
        mapGet s.CustomOrder b.path = some 1 → mapGet s.CustomOrder c.path = none →
        pathList.Perm [a, b, c] → sortSlice (pathLess s) pathList = [b, a, c] := by
  have hsorted := sortSlice_pairwise (pathLess s) (pathLess_asymm s) (pathLess_negtrans s) pathList
  refine ⟨hsorted.imp ?_, hsorted.imp ?_, hsorted.imp ?_, ?_⟩
  · intro x y h hy hx
    cases hy' : mapGet s.CustomOrder y.path with
    | none => exact hy hy'
    | some py => simp [pathLess, hx, hy'] at h
  · intro x y h px py hx hy
    simpa [pathLess, hx, hy] using h
  · intro x y h hx hy
    simpa [pathLess, hx, hy] using h
  · intro a b c ha hb hc hperm
    have hab : pathLess s a b = false := by simp [pathLess, ha, hb]
    have hba : pathLess s b a = true := by simp [pathLess, ha, hb]
    have hac : pathLess s a c = true := by simp [pathLess, ha, hc]
    have hca : pathLess s c a = false := by simp [pathLess, ha, hc]
    have hbc : pathLess s b c = true := by simp [pathLess, hb, hc]
    have hcb : pathLess s c b = false := by simp [pathLess, hb, hc]
    rw [← List.mem_permutations] at hperm
    simp [List.permutations, List.permutationsAux_cons, List.permutationsAux_nil,
      List.permutationsAux2] at hperm
    rcases hperm with h | h | h | h | h | h <;> subst h <;>
      simp [sortSlice, insertFromRight, hab, hba, hac, hca, hbc, hcb]

/-- C3, at the endpoints `A` (priority 2), `B` (priority 1) and `C`
(none), collected in the order `C, A, B`. -/
theorem sortSlice_pathLess_order_witness :
    sortSlice (pathLess orderConverter) [endpoint "C", endpoint "A", endpoint "B"] =
      [endpoint "B", endpoint "A", endpoint "C"] :=
  (sortSlice_pathLess_order orderConverter [endpoint "C", endpoint "A", endpoint "B"]).2.2.2
    (endpoint "A") (endpoint "B") (endpoint "C") rfl rfl rfl
    ((List.Perm.swap (endpoint "A") (endpoint "C") [endpoint "B"]).trans
      (List.Perm.cons (endpoint "A")
        (List.Perm.swap (endpoint "B") (endpoint "C") [])))

/-! ## Termination of the field-table recursion -/

theorem Run.halts_write (t : String) : (Run.write t).Halts := by
  simp [Run.Halts, Run.write]

theorem Run.halts_skip : Run.skip.Halts := by
  simp [Run.Halts, Run.skip]

theorem Run.halts_of_ok (r : Run) (h : r.status = .ok) : r.Halts := by
  simp [Run.Halts, h]

theorem Run.halts_seq (a b : Run) (ha : a.Halts) (hb : b.Halts) : (Run.seq a b).Halts := by
  unfold Run.Halts at *
  unfold Run.seq
  split
  · exact hb
  · exact ha

theorem Run.halts_forEachFrom {α : Type} (body : Nat → α → Run) (i : Nat) (xs : List α)
    (h : ∀ j, ∀ x ∈ xs, (body j x).Halts) : (Run.forEachFrom body i xs).Halts := by
  induction xs generalizing i with
  | nil => exact Run.halts_skip
  | cons x xs ih =>
    exact Run.halts_seq _ _ (h i x (List.mem_cons_self _ _))
      (ih (i + 1) fun j y hy => h j y (List.mem_cons_of_mem _ hy))

theorem Run.halts_withValue {α : Type} (v : Option α) (k : α → Run)
    (h : ∀ a, v = some a → (k a).Halts) : (Run.withValue v k).Halts := by
  cases v with
  | none => simp [Run.withValue, Run.Halts, Run.panic]
  | some a => exact h a rfl

theorem halts_withDefinition (s : SwaggerMarkdown) (defs : GoMap Definition) (ref : String)
    (k : String → Definition → Run)
    (h : ∀ name d, extractRefName s ref = some name → mapGet defs name = some d →
      (k name d).Halts) : (withDefinition s defs ref k).Halts := by
  unfold withDefinition
  refine Run.halts_withValue _ _ fun name hname => ?_
  cases hd : mapGet defs name with
  | none => exact Run.halts_skip
  | some d => exact h name d hname hd

theorem halts_fieldRows (s : SwaggerMarkdown) (props : GoMap Property) :
    (Run.forEach (writeFieldRow s) props).Halts :=
  Run.halts_of_ok _ (forEach_writeFieldRow s props).1

theorem CalleesHalt.mono {s : SwaggerMarkdown} {defs : GoMap Definition}
    {recDef : RangeOrder → Definition → Run} {refs refs' : List String}
    (h : CalleesHalt s defs recDef refs) (hsub : ∀ ref ∈ refs', ref ∈ refs) :
    CalleesHalt s defs recDef refs' :=
  fun ref hr => h ref (hsub ref hr)

theorem mem_allOfRefs (items : List AllOfItem) (item : AllOfItem) (hi : item ∈ items)
    (hr : item.Ref ≠ "") : item.Ref ∈ allOfRefs items := by
  simp only [allOfRefs, List.mem_filter, List.mem_map]
  exact ⟨⟨item, hi, rfl⟩, by simpa using hr⟩

theorem definitionAllOfStep_halts (s : SwaggerMarkdown) (ρ : RangeOrder) (hρ : ρ.Valid)
    (defs : GoMap Definition)
    (recDef : RangeOrder → Definition → Run) (items : List AllOfItem) (item : AllOfItem)
    (hi : item ∈ items) (h : CalleesHalt s defs recDef (allOfRefs items)) :
    (definitionAllOfStep s ρ defs recDef item).Halts := by
  unfold definitionAllOfStep
  split
  · rename_i hr
    exact halts_withDefinition _ _ _ _ fun name d hn hd =>
      h _ (mem_allOfRefs items item hi hr) name d hn hd ρ hρ
  · split
    · exact Run.halts_seq _ _ (Run.halts_write _)
        (Run.halts_seq _ _ (Run.halts_write _) (halts_fieldRows s _))
    · exact Run.halts_skip

theorem definitionNestedStep_halts (s : SwaggerMarkdown) (ρ : RangeOrder) (hρ : ρ.Valid)
    (defs : GoMap Definition)
    (recDef : RangeOrder → Definition → Run) (recNested : RangeOrder → GoMap JSON → Run)
    (fp : String × Property)
    (hn : ∀ nestedProps, fp.2.Properties = .obj nestedProps →
      (recNested (ρ.sub 0) nestedProps).Halts)
    (h : CalleesHalt s defs recDef (propertyRefs fp.2)) :
    (definitionNestedStep s ρ defs recDef recNested fp).Halts := by
  unfold definitionNestedStep
  refine Run.halts_seq _ _ ?_ (Run.halts_seq _ _ ?_ (Run.halts_seq _ _ ?_ ?_))
  · split
    · rename_i nestedProps hp
      exact Run.halts_seq _ _ (Run.halts_write _) (hn nestedProps hp)
    · exact Run.halts_skip
  · split
    · rename_i hr
      refine halts_withDefinition _ _ _ _ fun name d hnm hd =>
        Run.halts_seq _ _ (Run.halts_write _)
          (h fp.2.Ref ?_ name d hnm hd _ (ρ.valid_sub hρ 1))
      simp [propertyRefs, hr]
    · exact Run.halts_skip
  · refine Run.halts_forEachFrom _ _ _ fun k item hi => ?_
    split
    · rename_i hr
      refine halts_withDefinition _ _ _ _ fun name d hnm hd =>
        Run.halts_seq _ _ (Run.halts_write _)
          (h item.Ref ?_ name d hnm hd _ ((ρ.sub 2).valid_sub (ρ.valid_sub hρ 2) k))
      have := mem_allOfRefs fp.2.AllOf item hi hr
      simp [propertyRefs, this]
    · exact Run.halts_skip
  · split
    · rename_i items hitems
      split
      · rename_i hr
        refine halts_withDefinition _ _ _ _ fun name d hnm hd =>
          Run.halts_seq _ _ (Run.halts_write _)
            (h items.Ref ?_ name d hnm hd _ (ρ.valid_sub hρ 3))
        simp [propertyRefs, hitems, hr]
      · exact Run.halts_skip
    · exact Run.halts_skip

theorem mapGet_cons {α : Type} (k key : String) (v : α) (rest : GoMap α) :
    mapGet ((k, v) :: rest) key = if key = k then some v else mapGet rest key := by
  by_cases h : key = k
  · subst h
    simp [mapGet, List.lookup]
  · have hb : (key == k) = false := by simpa using h
    simp [mapGet, List.lookup, hb, h]

theorem mem_of_mapGet {α : Type} (m : GoMap α) (key : String) (v : α)
    (h : mapGet m key = some v) : (key, v) ∈ m := by
  induction m with
  | nil => simp [mapGet] at h
  | cons e rest ih =>
    obtain ⟨k, w⟩ := e
    rw [mapGet_cons] at h
    by_cases hk : key = k
    · rw [if_pos hk] at h
      have hv := Option.some.inj h
      simp [hk, hv]
    · rw [if_neg hk] at h
      exact List.mem_cons_of_mem _ (ih h)

theorem assertString_eq_some (j : JSON) (v : String) (h : j.assertString = some v) :
    j = .str v := by
  cases j <;> simp [JSON.assertString] at h
  rw [h]

theorem nestedEntryRefs_cons (k : String) (v : JSON) (rest : GoMap JSON) :
    nestedEntryRefs ((k, v) :: rest) =
      (if k = "$ref" then
        (match v with
          | .str ref => [ref]
          | _ => [])
      else if k = "properties" then
        (match v with
          | .obj nestedMap => nestedRefs nestedMap
          | _ => [])
      else if k = "allOf" then
        (match v with
          | .arr allOfList => nestedAllOfRefs allOfList
          | _ => [])
      else []) ++ nestedEntryRefs rest := by
  cases v <;> rfl

theorem nestedRefs_cons (k : String) (prop : JSON) (rest : GoMap JSON) :
    nestedRefs ((k, prop) :: rest) = nestedPropRefs prop ++ nestedRefs rest := by
  rw [nestedRefs]

theorem nestedAllOfRefs_cons (item : JSON) (rest : List JSON) :
    nestedAllOfRefs (item :: rest) =
      (match item with
        | .obj allOfMap =>
          (match mapGet allOfMap "$ref" with
            | some (.str ref) => [ref]
            | _ => [])
        | _ => []) ++ nestedAllOfRefs rest := by
  cases item <;> rfl

theorem nestedPropRefs_obj (propMap : GoMap JSON) :
    nestedPropRefs (.obj propMap) = nestedEntryRefs propMap := by
  rw [nestedPropRefs]

theorem ref_mem_nestedEntryRefs (propMap : GoMap JSON) (ref : String)
    (h : mapGet propMap "$ref" = some (.str ref)) : ref ∈ nestedEntryRefs propMap := by
  induction propMap with
  | nil => simp [mapGet] at h
  | cons e rest ih =>
    obtain ⟨k, v⟩ := e
    rw [mapGet_cons] at h
    rw [nestedEntryRefs_cons]
    by_cases hk : "$ref" = k
    · rw [if_pos hk] at h
      have hv := Option.some.inj h
      subst hk hv
      exact List.mem_append_left _ (by simp)
    · rw [if_neg hk] at h
      exact List.mem_append_right _ (ih h)

theorem properties_sub_nestedEntryRefs (propMap nestedMap : GoMap JSON)
    (h : mapGet propMap "properties" = some (.obj nestedMap)) :
    ∀ ref ∈ nestedRefs nestedMap, ref ∈ nestedEntryRefs propMap := by
  induction propMap with
  | nil => simp [mapGet] at h
  | cons e rest ih =>
    obtain ⟨k, v⟩ := e
    intro ref hr
    rw [mapGet_cons] at h
    rw [nestedEntryRefs_cons]
    by_cases hk : "properties" = k
    · rw [if_pos hk] at h
      have hv := Option.some.inj h
      subst hk hv
      exact List.mem_append_left _ (by simpa using hr)
    · rw [if_neg hk] at h
      exact List.mem_append_right _ (ih h ref hr)

theorem allOf_sub_nestedEntryRefs (propMap : GoMap JSON) (allOfList : List JSON)
    (h : mapGet propMap "allOf" = some (.arr allOfList)) :
    ∀ ref ∈ nestedAllOfRefs allOfList, ref ∈ nestedEntryRefs propMap := by
  induction propMap with
  | nil => simp [mapGet] at h
  | cons e rest ih =>
    obtain ⟨k, v⟩ := e
    intro ref hr
    rw [mapGet_cons] at h
    rw [nestedEntryRefs_cons]
    by_cases hk : "allOf" = k
    · rw [if_pos hk] at h
      have hv := Option.some.inj h
      subst hk hv
      exact List.mem_append_left _ (by simpa using hr)
    · rw [if_neg hk] at h
      exact List.mem_append_right _ (ih h ref hr)

theorem ref_mem_nestedAllOfRefs (allOfList : List JSON) (allOfMap : GoMap JSON)
    (ref : String) (hi : JSON.obj allOfMap ∈ allOfList)
    (h : mapGet allOfMap "$ref" = some (.str ref)) : ref ∈ nestedAllOfRefs allOfList := by
  induction allOfList with
  | nil => simp at hi
  | cons item rest ih =>
    rw [nestedAllOfRefs_cons]
    rcases List.mem_cons.1 hi with hitem | hrest
    · subst hitem
      exact List.mem_append_left _ (by simp [h])
    · exact List.mem_append_right _ (ih hrest)

theorem nestedPropRefs_sub_nestedRefs (props : GoMap JSON) (fp : String × JSON)
    (hfp : fp ∈ props) : ∀ ref ∈ nestedPropRefs fp.2, ref ∈ nestedRefs props := by
  induction props with
  | nil => simp at hfp
  | cons e rest ih =>
    obtain ⟨k, v⟩ := e
    intro ref hr
    rw [nestedRefs_cons]
    rcases List.mem_cons.1 hfp with hhead | hrest
    · subst hhead
      exact List.mem_append_left _ hr
    · exact List.mem_append_right _ (ih hrest ref hr)

theorem nestedStep_halts (s : SwaggerMarkdown) (ρ : RangeOrder) (hρ : ρ.Valid)
    (defs : GoMap Definition)
    (recDef : RangeOrder → Definition → Run) (recNested : RangeOrder → GoMap JSON → Run)
    (fp : String × JSON)
    (hn : ∀ propMap nestedMap, fp.2 = .obj propMap →
      mapGet propMap "properties" = some (.obj nestedMap) →
      (recNested (ρ.sub 1) nestedMap).Halts)
    (h : CalleesHalt s defs recDef (nestedPropRefs fp.2)) :
    (nestedStep s ρ defs recDef recNested fp).Halts := by
  unfold nestedStep
  split
  · rename_i propMap hobj
    rw [hobj, nestedPropRefs_obj] at h
    refine Run.halts_withValue _ _ fun fieldType _ => Run.halts_withValue _ _ fun desc _ => ?_
    refine Run.halts_seq _ _ (Run.halts_write _)
      (Run.halts_seq _ _ ?_ (Run.halts_seq _ _ ?_ ?_))
    · split
      · rename_i ref href
        refine Run.halts_withValue _ _ fun refStr hstr => ?_
        rw [assertString_eq_some _ _ hstr] at href
        exact halts_withDefinition _ _ _ _ fun name d hnm hd =>
          Run.halts_seq _ _ (Run.halts_write _)
            (h refStr (ref_mem_nestedEntryRefs propMap refStr href) name d hnm hd _
              (ρ.valid_sub hρ 0))
      · exact Run.halts_skip
    · split
      · rename_i nestedMap hprops
        exact Run.halts_seq _ _ (Run.halts_write _) (hn propMap nestedMap hobj hprops)
      · exact Run.halts_skip
    · split
      · rename_i allOfList hallof
        refine Run.halts_forEachFrom _ _ _ fun k item hi => ?_
        split
        · rename_i allOfMap
          split
          · rename_i ref href
            refine Run.halts_withValue _ _ fun refStr hstr => ?_
            rw [assertString_eq_some _ _ hstr] at href
            exact halts_withDefinition _ _ _ _ fun name d hnm hd =>
              Run.halts_seq _ _ (Run.halts_write _)
                (h refStr (allOf_sub_nestedEntryRefs propMap allOfList hallof refStr
                  (ref_mem_nestedAllOfRefs allOfList allOfMap refStr hi href)) name d hnm hd _
                  ((ρ.sub 2).valid_sub (ρ.valid_sub hρ 2) k))
          · exact Run.halts_skip
        · exact Run.halts_skip
      · exact Run.halts_skip
  · exact Run.halts_skip

theorem sizeOf_value_lt {α : Type} [SizeOf α] (m : List (String × α)) (k : String) (v : α)
    (h : (k, v) ∈ m) : sizeOf v < sizeOf m := by
  have h1 := List.sizeOf_lt_of_mem h
  have h2 : sizeOf (k, v) = 1 + sizeOf k + sizeOf v := by simp
  omega

theorem sizeOf_obj (kvs : List (String × JSON)) : sizeOf (JSON.obj kvs) = 1 + sizeOf kvs := by
  simp

theorem sizeOf_properties_lt (p : Property) : sizeOf p.Properties < sizeOf p := by
  cases p with
  | mk t f d r i pr a =>
    simp only [Property.Properties, Property.mk.sizeOf_spec]
    omega

theorem sizeOf_nested_lt (props propMap nestedMap : GoMap JSON) (fp : String × JSON)
    (hfp : fp ∈ props) (hobj : fp.2 = .obj propMap)
    (hprops : mapGet propMap "properties" = some (.obj nestedMap)) :
    sizeOf nestedMap < sizeOf props := by
  have h1 := sizeOf_value_lt propMap _ _ (mem_of_mapGet _ _ _ hprops)
  have h2 := sizeOf_obj nestedMap
  have h3 := sizeOf_obj propMap
  have h4 : sizeOf fp.2 < sizeOf props := sizeOf_value_lt props fp.1 fp.2 hfp
  rw [hobj] at h4
  omega

/-- `writeNestedFields` ends on every map once the recursive calls on the
models that the map refers to end. -/
theorem writeNestedFields_halts (s : SwaggerMarkdown) (defs : GoMap Definition) (N0 n : Nat) :
    ∀ props : GoMap JSON, sizeOf props ≤ n →
      (∀ m, N0 ≤ m →
        CalleesHalt s defs (fun ρ d => writeDefinitionFields s ρ m d defs) (nestedRefs props)) →
      ∀ k, N0 + n ≤ k → ∀ ρ : RangeOrder, ρ.Valid →
        (writeNestedFields s ρ (k + 1) props defs).Halts := by
  induction n using Nat.strong_induction_on with
  | _ n ih =>
    intro props hsz H k hk ρ hρ
    rw [writeNestedFields]
    refine Run.halts_seq _ _ (Run.halts_write _) (Run.halts_seq _ _ (Run.halts_write _)
      (Run.halts_forEachFrom _ _ _ fun j fp hfp' =>
        nestedStep_halts _ _ (ρ.valid_sub hρ j) _ _ _ fp ?_ ?_))
    · have hfp : fp ∈ props := (ρ.mem_range hρ props fp).1 hfp'
      intro propMap nestedMap hobj hprops
      have hlt := sizeOf_nested_lt props propMap nestedMap fp hfp hobj hprops
      obtain ⟨k', rfl⟩ : ∃ k', k = k' + 1 := ⟨k - 1, by omega⟩
      refine ih (sizeOf nestedMap) (by omega) nestedMap (Nat.le_refl _) (fun m hm => ?_) k'
        (by omega) _ ((ρ.sub j).valid_sub (ρ.valid_sub hρ j) 1)
      refine (H m hm).mono fun ref hr => ?_
      refine nestedPropRefs_sub_nestedRefs props fp hfp ref ?_
      rw [hobj, nestedPropRefs_obj]
      exact properties_sub_nestedEntryRefs propMap nestedMap hprops ref hr
    · exact (H k (by omega)).mono
        (nestedPropRefs_sub_nestedRefs props fp ((ρ.mem_range hρ props fp).1 hfp'))

theorem propertyRefs_sub_definitionRefs (d : Definition) (fp : String × Property)
    (hfp : fp ∈ d.Properties) : ∀ ref ∈ propertyRefs fp.2, ref ∈ definitionRefs d := by
  intro ref hr
  unfold definitionRefs
  refine List.mem_append_right _ (List.mem_flatten.2 ⟨propertyRefs fp.2, ?_, hr⟩)
  exact List.mem_map.2 ⟨fp, hfp, rfl⟩

/-- `writeDefinitionFields` ends on a model once the recursive calls on the
models that it refers to end. -/
theorem writeDefinitionFields_halts_of_callees (s : SwaggerMarkdown)
    (defs : GoMap Definition) (N0 : Nat) (d : Definition)
    (H : ∀ m, N0 ≤ m →
      CalleesHalt s defs (fun ρ d' => writeDefinitionFields s ρ m d' defs)
        (definitionRefs d)) :
    ∀ k, N0 + sizeOf d.Properties ≤ k → ∀ ρ : RangeOrder, ρ.Valid →
      (writeDefinitionFields s ρ (k + 1) d defs).Halts := by
  intro k hk ρ hρ
  rw [writeDefinitionFields]
  refine Run.halts_seq _ _ ?_ ?_
  · refine Run.halts_forEachFrom _ _ _ fun i item hi =>
      definitionAllOfStep_halts _ _ ((ρ.sub 0).valid_sub (ρ.valid_sub hρ 0) i) _ _
        d.AllOf item hi ?_
    exact (H k (by omega)).mono fun ref hr => List.mem_append_left _ hr
  · split
    · refine Run.halts_seq _ _ (Run.halts_write _) (Run.halts_seq _ _ (Run.halts_write _)
        (Run.halts_seq _ _ (halts_fieldRows s _) (Run.halts_seq _ _ (Run.halts_write _)
          (Run.halts_forEachFrom _ _ _ fun j fp hfp' =>
            definitionNestedStep_halts _ _ ((ρ.sub 2).valid_sub (ρ.valid_sub hρ 2) j)
              _ _ _ fp ?_ ?_))))
      · have hfp : fp ∈ d.Properties :=
          ((ρ.sub 2).mem_range (ρ.valid_sub hρ 2) d.Properties fp).1 hfp'
        intro nestedProps hp
        have h1 : sizeOf fp.2 < sizeOf d.Properties := sizeOf_value_lt d.Properties fp.1 fp.2 hfp
        have h2 := sizeOf_properties_lt fp.2
        have h3 := sizeOf_obj nestedProps
        rw [hp] at h2
        obtain ⟨k', rfl⟩ : ∃ k', k = k' + 1 := ⟨k - 1, by omega⟩
        refine writeNestedFields_halts s defs N0 (sizeOf nestedProps) nestedProps
          (Nat.le_refl _) (fun m hm => ?_) k' (by omega) _
          (((ρ.sub 2).sub j).valid_sub ((ρ.sub 2).valid_sub (ρ.valid_sub hρ 2) j) 0)
        refine (H m hm).mono fun ref hr => ?_
        refine propertyRefs_sub_definitionRefs d fp hfp ref ?_
        unfold propertyRefs
        rw [hp]
        exact List.mem_append_left _ hr
      · exact (H k (by omega)).mono (propertyRefs_sub_definitionRefs d fp
          (((ρ.sub 2).mem_range (ρ.valid_sub hρ 2) d.Properties fp).1 hfp'))
    · exact Run.halts_skip

theorem exists_uniform_bound {α : Type} (l : List α) (P : Nat → α → Prop)
    (h : ∀ x ∈ l, ∃ n, ∀ m, n ≤ m → P m x) : ∃ N, ∀ m, N ≤ m → ∀ x ∈ l, P m x := by
  induction l with
  | nil => exact ⟨0, fun _ _ x hx => by simp at hx⟩
  | cons a rest ih =>
    obtain ⟨n1, h1⟩ := h a (List.mem_cons_self _ _)
    obtain ⟨n2, h2⟩ := ih fun x hx => h x (List.mem_cons_of_mem _ hx)
    refine ⟨max n1 n2, fun m hm x hx => ?_⟩
    rcases List.mem_cons.1 hx with rfl | hx
    · exact h1 m (le_trans (le_max_left _ _) hm)
    · exact h2 m (le_trans (le_max_right _ _) hm) x hx

/-- A model is rendered in finitely many steps when each model of the table
that it refers to is. -/
theorem writeDefinitionFields_halts_of_refs (s : SwaggerMarkdown) (defs : GoMap Definition)
    (d : Definition)
    (h : ∀ ref ∈ definitionRefs d, ∀ name d', extractRefName s ref = some name →
      mapGet defs name = some d' →
      ∃ N, ∀ m, N ≤ m → ∀ ρ : RangeOrder, ρ.Valid →
        (writeDefinitionFields s ρ m d' defs).Halts) :
    ∃ N, ∀ m, N ≤ m → ∀ ρ : RangeOrder, ρ.Valid →
      (writeDefinitionFields s ρ m d defs).Halts := by
  have hper : ∀ ref ∈ definitionRefs d, ∃ n, ∀ m, n ≤ m →
      ∀ name d', extractRefName s ref = some name → mapGet defs name = some d' →
        ∀ ρ : RangeOrder, ρ.Valid → (writeDefinitionFields s ρ m d' defs).Halts := by
    intro ref hr
    cases hn : extractRefName s ref with
    | none => exact ⟨0, fun _ _ name d' hn' => by simp at hn'⟩
    | some name =>
      cases hd : mapGet defs name with
      | none =>
        refine ⟨0, fun _ _ name' d' hn' hd' => ?_⟩
        cases hn'
        rw [hd] at hd'
        cases hd'
      | some d0 =>
        obtain ⟨N, hN⟩ := h ref hr name d0 hn hd
        refine ⟨N, fun m hm name' d' hn' hd' => ?_⟩
        cases hn'
        rw [hd] at hd'
        cases hd'
        exact hN m hm
  obtain ⟨N0, hN0⟩ := exists_uniform_bound (definitionRefs d) _ hper
  refine ⟨N0 + sizeOf d.Properties + 1, fun m hm => ?_⟩
  obtain ⟨k, rfl⟩ : ∃ k, m = k + 1 := ⟨m - 1, by omega⟩
  exact writeDefinitionFields_halts_of_callees s defs N0 d
    (fun m' hm' ref hr name d' hn hd => hN0 m' hm' ref hr name d' hn hd) k (by omega)

/-- Every model of a table without reference cycle is rendered in finitely
many steps. -/
theorem table_halts (s : SwaggerMarkdown) (defs : GoMap Definition) (rank : String → Nat)
    (hrank : refsDescend s defs rank = true) :
    ∀ (r : Nat) (name : String) (d : Definition), rank name = r → (name, d) ∈ defs →
      ∃ N, ∀ m, N ≤ m → ∀ ρ : RangeOrder, ρ.Valid →
        (writeDefinitionFields s ρ m d defs).Halts := by
  intro r
  induction r using Nat.strong_induction_on with
  | _ r ih =>
    intro name d hr hmem
    refine writeDefinitionFields_halts_of_refs s defs d fun ref href name' d' hn hd => ?_
    have hlt : rank name' < rank name := by
      have h1 := List.all_eq_true.1 hrank (name, d) hmem
      have h2 := List.all_eq_true.1 h1 ref href
      simp only [hn, hd, Option.isNone_some, Bool.false_or, decide_eq_true_eq] at h2
      exact h2
    exact ih (rank name') (hr ▸ hlt) name' d' rfl (mem_of_mapGet defs name' d' hd)

/-! ### More fuel does not change a run that ended -/

theorem Run.refines_refl (a : Run) : a.Refines a := fun _ => rfl

theorem Run.refines_seq (a a' b b' : Run) (ha : a.Refines a') (hb : b.Refines b') :
    (Run.seq a b).Refines (Run.seq a' b') := by
  intro h
  cases a with
  | mk ao st =>
    cases st with
    | ok =>
      have ha' := ha (by simp [Run.Halts])
      have hb' := hb (by simpa [Run.Halts, Run.seq] using h)
      rw [ha', hb']
    | panic =>
      have ha' := ha (by simp [Run.Halts])
      rw [ha']
      rfl
    | outOfFuel => exact absurd rfl h

theorem Run.refines_forEachFrom {α : Type} (body body' : Nat → α → Run) (i : Nat)
    (xs : List α) (h : ∀ j, ∀ x ∈ xs, (body j x).Refines (body' j x)) :
    (Run.forEachFrom body i xs).Refines (Run.forEachFrom body' i xs) := by
  induction xs generalizing i with
  | nil => exact Run.refines_refl _
  | cons x xs ih =>
    exact Run.refines_seq _ _ _ _ (h i x (List.mem_cons_self _ _))
      (ih (i + 1) fun j y hy => h j y (List.mem_cons_of_mem _ hy))

theorem Run.refines_withValue {α : Type} (v : Option α) (k k' : α → Run)
    (h : ∀ a, (k a).Refines (k' a)) : (Run.withValue v k).Refines (Run.withValue v k') := by
  cases v with
  | none => exact Run.refines_refl _
  | some a => exact h a

theorem refines_withDefinition (s : SwaggerMarkdown) (defs : GoMap Definition) (ref : String)
    (k k' : String → Definition → Run) (h : ∀ name d, (k name d).Refines (k' name d)) :
    (withDefinition s defs ref k).Refines (withDefinition s defs ref k') := by
  unfold withDefinition
  refine Run.refines_withValue _ _ _ fun name => ?_
  cases mapGet defs name with
  | none => exact Run.refines_refl _
  | some d => exact h name d

theorem definitionAllOfStep_refines (s : SwaggerMarkdown) (ρ : RangeOrder)
    (defs : GoMap Definition)
    (recDef recDef' : RangeOrder → Definition → Run)
    (h : ∀ ρ' d, (recDef ρ' d).Refines (recDef' ρ' d))
    (item : AllOfItem) :
    (definitionAllOfStep s ρ defs recDef item).Refines
      (definitionAllOfStep s ρ defs recDef' item) := by
  unfold definitionAllOfStep
  split
  · exact refines_withDefinition _ _ _ _ _ fun _ d => h _ d
  · exact Run.refines_refl _

theorem definitionNestedStep_refines (s : SwaggerMarkdown) (ρ : RangeOrder)
    (defs : GoMap Definition)
    (recDef recDef' : RangeOrder → Definition → Run)
    (recNested recNested' : RangeOrder → GoMap JSON → Run)
    (h : ∀ ρ' d, (recDef ρ' d).Refines (recDef' ρ' d))
    (hn : ∀ ρ' props, (recNested ρ' props).Refines (recNested' ρ' props))
    (fp : String × Property) :
    (definitionNestedStep s ρ defs recDef recNested fp).Refines
      (definitionNestedStep s ρ defs recDef' recNested' fp) := by
  unfold definitionNestedStep
  refine Run.refines_seq _ _ _ _ ?_ (Run.refines_seq _ _ _ _ ?_
    (Run.refines_seq _ _ _ _ ?_ ?_))
  · split
    · exact Run.refines_seq _ _ _ _ (Run.refines_refl _) (hn _ _)
    · exact Run.refines_refl _
  · split
    · exact refines_withDefinition _ _ _ _ _ fun _ d =>
        Run.refines_seq _ _ _ _ (Run.refines_refl _) (h _ d)
    · exact Run.refines_refl _
  · refine Run.refines_forEachFrom _ _ _ _ fun _ item _ => ?_
    split
    · exact refines_withDefinition _ _ _ _ _ fun _ d =>
        Run.refines_seq _ _ _ _ (Run.refines_refl _) (h _ d)
    · exact Run.refines_refl _
  · split
    · split
      · exact refines_withDefinition _ _ _ _ _ fun _ d =>
          Run.refines_seq _ _ _ _ (Run.refines_refl _) (h _ d)
      · exact Run.refines_refl _
    · exact Run.refines_refl _

theorem nestedStep_refines (s : SwaggerMarkdown) (ρ : RangeOrder) (defs : GoMap Definition)
    (recDef recDef' : RangeOrder → Definition → Run)
    (recNested recNested' : RangeOrder → GoMap JSON → Run)
    (h : ∀ ρ' d, (recDef ρ' d).Refines (recDef' ρ' d))
    (hn : ∀ ρ' props, (recNested ρ' props).Refines (recNested' ρ' props))
    (fp : String × JSON) :
    (nestedStep s ρ defs recDef recNested fp).Refines
      (nestedStep s ρ defs recDef' recNested' fp) := by
  unfold nestedStep
  split
  · refine Run.refines_withValue _ _ _ fun _ => Run.refines_withValue _ _ _ fun _ => ?_
    refine Run.refines_seq _ _ _ _ (Run.refines_refl _) (Run.refines_seq _ _ _ _ ?_
      (Run.refines_seq _ _ _ _ ?_ ?_))
    · split
      · exact Run.refines_withValue _ _ _ fun _ =>
          refines_withDefinition _ _ _ _ _ fun _ d =>
            Run.refines_seq _ _ _ _ (Run.refines_refl _) (h _ d)
      · exact Run.refines_refl _
    · split
      · exact Run.refines_seq _ _ _ _ (Run.refines_refl _) (hn _ _)
      · exact Run.refines_refl _
    · split
      · refine Run.refines_forEachFrom _ _ _ _ fun _ item _ => ?_
        split
        · split
          · exact Run.refines_withValue _ _ _ fun _ =>
              refines_withDefinition _ _ _ _ _ fun _ d =>
                Run.refines_seq _ _ _ _ (Run.refines_refl _) (h _ d)
          · exact Run.refines_refl _
        · exact Run.refines_refl _
      · exact Run.refines_refl _
  · exact Run.refines_refl _

/-- One more unit of fuel does not change a run of `writeDefinitionFields` or
`writeNestedFields` that ended. -/
theorem fuel_succ_refines (s : SwaggerMarkdown) (defs : GoMap Definition) (n : Nat) :
    (∀ ρ d, (writeDefinitionFields s ρ n d defs).Refines
        (writeDefinitionFields s ρ (n + 1) d defs)) ∧
      ∀ ρ props,
        (writeNestedFields s ρ n props defs).Refines
          (writeNestedFields s ρ (n + 1) props defs) := by
  induction n with
  | zero =>
    exact ⟨fun ρ d h => absurd rfl h, fun ρ props h => absurd rfl h⟩
  | succ n ih =>
    refine ⟨fun ρ d => ?_, fun ρ props => ?_⟩
    · rw [writeDefinitionFields, writeDefinitionFields]
      refine Run.refines_seq _ _ _ _ ?_ ?_
      · exact Run.refines_forEachFrom _ _ _ _ fun _ item _ =>
          definitionAllOfStep_refines _ _ _ _ _ ih.1 item
      · split
        · exact Run.refines_seq _ _ _ _ (Run.refines_refl _)
            (Run.refines_seq _ _ _ _ (Run.refines_refl _)
              (Run.refines_seq _ _ _ _ (Run.refines_refl _)
                (Run.refines_seq _ _ _ _ (Run.refines_refl _)
                  (Run.refines_forEachFrom _ _ _ _ fun _ fp _ =>
                    definitionNestedStep_refines _ _ _ _ _ _ _ ih.1 ih.2 fp))))
        · exact Run.refines_refl _
    · rw [writeNestedFields, writeNestedFields]
      exact Run.refines_seq _ _ _ _ (Run.refines_refl _)
        (Run.refines_seq _ _ _ _ (Run.refines_refl _)
          (Run.refines_forEachFrom _ _ _ _ fun _ fp _ =>
            nestedStep_refines _ _ _ _ _ _ _ ih.1 ih.2 fp))

/-- A run of `writeDefinitionFields` that ended is the same with any larger
amount of fuel. -/
theorem writeDefinitionFields_fuel_mono (s : SwaggerMarkdown) (ρ : RangeOrder)
    (defs : GoMap Definition)
    (d : Definition) (n m : Nat) (hnm : n ≤ m)
    (h : (writeDefinitionFields s ρ n d defs).Halts) :
    writeDefinitionFields s ρ m d defs = writeDefinitionFields s ρ n d defs := by
  induction m with
  | zero =>
    have : n = 0 := by omega
    rw [this]
  | succ m ih =>
    by_cases hn : n = m + 1
    · rw [hn]
    · have hm := ih (by omega)
      have hstep := (fuel_succ_refines s defs m).1 ρ d (by rw [hm]; exact h)
      rw [hstep, hm]

theorem writeDefinitionFields_modelSelf (fuel : Nat) (ρ : RangeOrder) :
    writeDefinitionFields plainConverter ρ fuel modelSelf [("A", modelSelf)] =
      Run.outOfFuel := by
  induction fuel generalizing ρ with
  | zero => rfl
  | succ fuel ih =>
    have hstep : definitionAllOfStep plainConverter ((ρ.sub 0).sub 0) [("A", modelSelf)]
        (fun ρ' nestedDef =>
          writeDefinitionFields plainConverter ρ' fuel nestedDef [("A", modelSelf)])
        (.mk "#/definitions/A" "" none) = Run.outOfFuel := by
      have hname : extractRefName plainConverter "#/definitions/A" = some "A" := by decide
      have hget : mapGet [("A", modelSelf)] "A" = some modelSelf := rfl
      have href : (AllOfItem.mk "#/definitions/A" "" none).Ref = "#/definitions/A" := rfl
      simp only [definitionAllOfStep, href, withDefinition, hname, Run.withValue, hget, ih]
      rfl
    rw [writeDefinitionFields]
    show Run.seq (Run.seq (definitionAllOfStep plainConverter ((ρ.sub 0).sub 0)
      [("A", modelSelf)] _ _) Run.skip) _ = Run.outOfFuel
    rw [hstep]
    rfl

/-- C6 as stated fails: on the table in which the model `A` includes itself,
no amount of fuel lets `writeDefinitionFields` end, whatever the orders of
`range`: the recursion never returns. -/
theorem writeDefinitionFields_cycle_counterexample :
    ¬ ∃ (ρ : RangeOrder) (fuel : Nat), (writeDefinitionFields plainConverter ρ fuel modelSelf
      [("A", modelSelf)]).status ≠ Status.outOfFuel := by
  rintro ⟨ρ, fuel, h⟩
  exact h (by rw [writeDefinitionFields_modelSelf]; rfl)

/-- C6, amended: for every definitions table whose references have no cycle
(each reference of a model of the table to a model of the table goes down in
some rank), rendering any definition with `writeDefinitionFields` ends: some
amount of fuel suffices whatever the orders of `range`, and every larger
amount gives the same run. -/
theorem writeDefinitionFields_terminates (s : SwaggerMarkdown) (defs : GoMap Definition)
    (rank : String → Nat) (hrank : refsDescend s defs rank = true) (d : Definition) :
    ∃ fuel, ∀ ρ : RangeOrder, ρ.Valid →
      (writeDefinitionFields s ρ fuel d defs).status ≠ Status.outOfFuel ∧
      ∀ m, fuel ≤ m →
        writeDefinitionFields s ρ m d defs = writeDefinitionFields s ρ fuel d defs := by
  obtain ⟨N, hN⟩ := writeDefinitionFields_halts_of_refs s defs d fun _ _ name d' _ hd =>
    table_halts s defs rank hrank (rank name) name d' rfl (mem_of_mapGet defs name d' hd)
  exact ⟨N, fun ρ hρ => ⟨hN N (Nat.le_refl _) ρ hρ, fun m hm =>
    writeDefinitionFields_fuel_mono s ρ defs d N m hm (hN N (Nat.le_refl _) ρ hρ)⟩⟩

/-- C6 amended, at the table of `A` and `B`, where `A` includes `B`. -/
theorem writeDefinitionFields_terminates_witness :
    refsDescend plainConverter [("A", modelA), ("B", modelB)] rankAB = true ∧
      ∃ fuel, ∀ ρ : RangeOrder, ρ.Valid →
        (writeDefinitionFields plainConverter ρ fuel modelA
          [("A", modelA), ("B", modelB)]).status ≠ Status.outOfFuel ∧
        ∀ m, fuel ≤ m →
          writeDefinitionFields plainConverter ρ m modelA [("A", modelA), ("B", modelB)] =
            writeDefinitionFields plainConverter ρ fuel modelA
              [("A", modelA), ("B", modelB)] :=
  ⟨by decide, writeDefinitionFields_terminates plainConverter [("A", modelA), ("B", modelB)]
    rankAB (by decide) modelA⟩

/-! ## The remaining rules of `getPropertyType` -/

/-- C11: for a property with no reference that is not an array with an item
descriptor, a non-empty `Format` gives `Type (Format)`; otherwise present
inline `Properties` give `object`; and with no format, no inline properties and
an empty `AllOf` the result is the bare `Type`. -/
theorem getPropertyType_priority (s : SwaggerMarkdown) (prop : Property)
    (hRef : prop.Ref = "") (hArray : ¬ (prop.Type_ = "array" ∧ prop.Items ≠ none)) :
    (prop.Format ≠ "" →
        getPropertyType s prop = some (prop.Type_ ++ " (" ++ prop.Format ++ ")")) ∧
      (prop.Format = "" → prop.Properties.isNil = false →
        getPropertyType s prop = some "object") ∧
      (prop.Format = "" → prop.Properties.isNil = true → prop.AllOf = [] →
        getPropertyType s prop = some prop.Type_) := by
  have hnone : (if prop.Type_ = "array" then prop.Items else none) = none := by
    by_cases ht : prop.Type_ = "array"
    · rw [if_pos ht]
      cases hi : prop.Items with
      | none => rfl
      | some items => exact absurd ⟨ht, by simp [hi]⟩ hArray
    · rw [if_neg ht]
  refine ⟨fun hf => ?_, fun hf hp => ?_, fun hf hp ha => ?_⟩
  · simp [getPropertyType, hRef, hnone, hf]
  · simp [getPropertyType, hRef, hnone, hf, hp]
  · simp [getPropertyType, hRef, hnone, hf, hp, ha]

/-- C11, at `{"type": "string", "format": "date-time"}`. -/
theorem getPropertyType_priority_witness :
    getPropertyType plainConverter formattedProperty = some ("string" ++ " (" ++ "date-time" ++ ")") :=
  (getPropertyType_priority plainConverter formattedProperty (by decide) (by decide)).1
    (by decide)

/-! ## `extractRefName` -/

theorem splitSep_last (sep : Char) (cs : List Char) :
    ∃ (init : List (List Char)) (l : List Char),
      splitSep sep cs = init ++ [l] ∧ sep ∉ l ∧
        ((init = [] ∧ cs = l) ∨ (init ≠ [] ∧ ∃ pre, cs = pre ++ sep :: l)) := by
  induction cs with
  | nil => exact ⟨[], [], rfl, by simp, Or.inl ⟨rfl, rfl⟩⟩
  | cons c cs ih =>
    obtain ⟨init, l, hsplit, hl, hcs⟩ := ih
    by_cases hc : c = sep
    · refine ⟨[] :: init, l, by simp [splitSep, hc, hsplit], hl, Or.inr ⟨by simp, ?_⟩⟩
      rcases hcs with ⟨_, hcs⟩ | ⟨_, pre, hcs⟩
      · exact ⟨[], by simp [hc, hcs]⟩
      · exact ⟨c :: pre, by simp [hcs]⟩
    · cases init with
      | nil =>
        rcases hcs with ⟨_, hcs⟩ | ⟨hne, _⟩
        · refine ⟨[], c :: l, by simp [splitSep, hc, hsplit], ?_, Or.inl ⟨rfl, by rw [hcs]⟩⟩
          simp [hl, Ne.symm hc]
        · exact absurd rfl hne
      | cons p ps =>
        rcases hcs with ⟨hnil, _⟩ | ⟨_, pre, hcs⟩
        · exact absurd hnil (by simp)
        · exact ⟨(c :: p) :: ps, l, by simp [splitSep, hc, hsplit], hl,
            Or.inr ⟨by simp, c :: pre, by simp [hcs]⟩⟩

/-- C12: for every string, `extractRefName` returns a name (the index is in
range); the name has no `/`, and the string is the name itself or something
that ends in `/` followed by the name. -/
theorem extractRefName_final_segment (s : SwaggerMarkdown) (ref : String) :
    ∃ name, extractRefName s ref = some name ∧ '/' ∉ name.data ∧
      (ref = name ∨ ∃ pre : String, ref = pre ++ "/" ++ name) := by
  obtain ⟨init, l, hsplit, hl, hcs⟩ := splitSep_last '/' ref.data
  refine ⟨⟨l⟩, ?_, hl, ?_⟩
  · simp only [extractRefName, stringsSplitSlash, hsplit, List.map_append, List.map_cons,
      List.map_nil]
    rw [← List.getLast?_eq_getElem?, List.getLast?_concat]
  · rcases hcs with ⟨_, hcs⟩ | ⟨_, pre, hcs⟩
    · exact Or.inl (by rw [← hcs])
    · refine Or.inr ⟨⟨pre⟩, ?_⟩
      apply String.ext
      have hslash : ("/" : String).data = ['/'] := rfl
      rw [String.data_append, String.data_append, hslash, hcs]
      simp

/-! ## Ordinary parameters and unresolved response schemas -/

/-- C15: a parameter without a schema reference gets no row when its name is
ignored, and otherwise exactly one row `| name | type | flag | description |`:
its name, `getParamType` (its `Type`, or `[]` and the name of the referenced
element when its schema is an array with items), `是` for a required parameter
and `否` otherwise, and its description; for the optional integer parameter
`page` described as `page number` the row is
`| page | integer | 否 | page number |`. -/
theorem writeParam_of_no_ref (s : SwaggerMarkdown) (ρ : RangeOrder) (defs : GoMap Definition)
    (param : Parameter) (hRef : param.Schema.Ref = "") :
    ∃ ty, getParamType s param = some ty ∧
      (∀ items, param.Schema.Type_ = "array" → param.Schema.Items = some items →
        ∃ n, extractRefName s items.Ref = some n ∧ ty = "[]" ++ n) ∧
      (¬ (param.Schema.Type_ = "array" ∧ param.Schema.Items ≠ none) → ty = param.Type_) ∧
      writeParam s ρ defs param =
        (if mapGetBool s.IgnoredFields param.Name = true then ⟨[], .ok⟩
         else ⟨["| " ++ param.Name ++ " | `" ++ ty ++ "` | " ++
            (if param.Required = true then "是" else "否") ++ " | " ++
            param.Description ++ " |\n"], .ok⟩) ∧
      writeParam appIdConverter RangeOrder.listed [] pageParam =
        ⟨["| page | `integer` | 否 | page number |\n"], .ok⟩ ∧
      writeParam appIdConverter RangeOrder.listed [] (queryParam "q") =
        ⟨["| q | `string` | 是 |  |\n"], .ok⟩ ∧
      writeParam appIdConverter RangeOrder.listed [] idsParam =
        ⟨["| ids | `[]Id` | 是 | the ids |\n"], .ok⟩ ∧
      writeParam appIdConverter RangeOrder.listed [] appIdParam = ⟨[], .ok⟩ ∧
      writeParam plainConverter RangeOrder.listed [] appIdParam =
        ⟨["| _app_id | `string` | 是 | app |\n"], .ok⟩ := by
  obtain ⟨ty, hty⟩ := getParamType_isSome s param
  refine ⟨ty, hty, ?_, ?_, ?_, by decide, by decide, by decide, by decide, by decide⟩
  · intro items hType hItems
    obtain ⟨n, hn⟩ := extractRefName_isSome s items.Ref
    refine ⟨n, hn, ?_⟩
    have h2 : getParamType s param = some ("[]" ++ n) := by
      simp [getParamType, hRef, hType, hItems, hn]
    rw [h2] at hty
    exact (Option.some.inj hty).symm
  · intro hno
    by_cases hType : param.Schema.Type_ = "array"
    · have hItems : param.Schema.Items = none := by
        by_contra hne
        exact hno ⟨hType, hne⟩
      have h2 : getParamType s param = some param.Type_ := by
        simp [getParamType, hRef, hType, hItems]
      rw [h2] at hty
      exact (Option.some.inj hty).symm
    · have h2 : getParamType s param = some param.Type_ := by
        simp [getParamType, hRef, hType]
      rw [h2] at hty
      exact (Option.some.inj hty).symm
  · simp only [writeParam, hRef, writeParamPlain, hty, Run.withValue]
    by_cases hig : mapGetBool s.IgnoredFields param.Name = true
    · simp [hig, Run.skip]
    · simp only [hig, if_false, Run.write, paramRow, ne_eq, not_true_eq_false]
      rfl

/-- C15, at the query parameter `page`, which is not ignored. -/
theorem writeParam_of_no_ref_witness :
    ∃ ty, getParamType appIdConverter pageParam = some ty ∧
      (¬ (pageParam.Schema.Type_ = "array" ∧ pageParam.Schema.Items ≠ none) →
        ty = pageParam.Type_) ∧
      writeParam appIdConverter RangeOrder.listed [] pageParam =
        (if mapGetBool appIdConverter.IgnoredFields pageParam.Name = true then ⟨[], .ok⟩
         else ⟨["| " ++ pageParam.Name ++ " | `" ++ ty ++ "` | " ++
            (if pageParam.Required = true then "是" else "否") ++ " | " ++
            pageParam.Description ++ " |\n"], .ok⟩) :=
  match writeParam_of_no_ref appIdConverter RangeOrder.listed [] pageParam (by decide) with
  | ⟨ty, hty, _, hplain, hrun, _⟩ => ⟨ty, hty, hplain, hrun⟩

/-- C16: when the reference of a response schema names a model that is not in
the table, `resolveSchema` returns the empty `Definition`, and
`writeResponseSchema` writes what it writes for the same schema without the
reference: nothing at all when the schema has no type and no composite
items. -/
theorem writeResponseSchema_of_unresolved (s : SwaggerMarkdown) (ρ : RangeOrder) (fuel : Nat)
    (schema : Schema) (defs : GoMap Definition) (refName : String)
    (hRef : schema.Ref ≠ "") (hName : extractRefName s schema.Ref = some refName)
    (hDef : mapGet defs refName = none) :
    resolveSchema s schema defs = some ⟨"", [], [], []⟩ ∧
      writeResponseSchema s ρ fuel schema defs =
        writeResponseSchema s ρ fuel { schema with Ref := "" } defs ∧
      (schema.Type_ = "" → schema.AllOf = [] →
        writeResponseSchema s ρ fuel schema defs = ⟨[], .ok⟩) := by
  refine ⟨by simp [resolveSchema, hRef, hName, hDef], ?_, fun ht ha => ?_⟩
  · simp [writeResponseSchema, hRef, hName, hDef, Run.withValue]
  · simp [writeResponseSchema, hRef, hName, hDef, Run.withValue, ht, ha, Run.skip]

/-- C16, at a response schema that refers to `Ghost`. -/
theorem writeResponseSchema_of_unresolved_witness :
    resolveSchema plainConverter ghostSchema [("UserRegister", userRegister)] =
        some ⟨"", [], [], []⟩ ∧
      writeResponseSchema plainConverter RangeOrder.listed 3 ghostSchema
          [("UserRegister", userRegister)] = ⟨[], .ok⟩ :=
  ⟨(writeResponseSchema_of_unresolved plainConverter RangeOrder.listed 3 ghostSchema
      [("UserRegister", userRegister)] "Ghost" (by decide) (by decide) rfl).1,
   (writeResponseSchema_of_unresolved plainConverter RangeOrder.listed 3 ghostSchema
      [("UserRegister", userRegister)] "Ghost" (by decide) (by decide) rfl).2.2 rfl rfl⟩

/-! ## Configuration -/

/-- C17: `SetOrder` replaces `CustomOrder` and keeps `IgnoredFields`,
`SetIgnored` replaces `IgnoredFields` and keeps `CustomOrder`, the two setters
commute, and a new converter has an empty order map and an empty
ignore-set. -/
theorem setters_frame (s : SwaggerMarkdown) (order : GoMap Int) (ignored : GoMap Bool) :
    (SetOrder s order).CustomOrder = order ∧
      (SetOrder s order).IgnoredFields = s.IgnoredFields ∧
      (SetIgnored s ignored).IgnoredFields = ignored ∧
      (SetIgnored s ignored).CustomOrder = s.CustomOrder ∧
      SetIgnored (SetOrder s order) ignored = SetOrder (SetIgnored s ignored) order ∧
      NewSwaggerMarkdown.CustomOrder = [] ∧ NewSwaggerMarkdown.IgnoredFields = [] :=
  ⟨rfl, rfl, rfl, rfl, rfl, rfl, rfl⟩

/-! ## The comparison of `writePaths` is a strict weak ordering -/

theorem strLtChars_irrefl (a : List Char) : strLtChars a a = false := by
  induction a with
  | nil => rfl
  | cons x xs ih => simp [strLtChars, ih]

theorem strLtChars_eq_of_incomparable (a b : List Char) (hab : strLtChars a b = false)
    (hba : strLtChars b a = false) : a = b := by
  induction a generalizing b with
  | nil =>
    cases b with
    | nil => rfl
    | cons y ys => simp [strLtChars] at hab
  | cons x xs ih =>
    cases b with
    | nil => simp [strLtChars] at hba
    | cons y ys =>
      simp only [strLtChars] at hab hba
      split_ifs at hab hba with h1 h2
      have hxy : x = y := Char.ext (UInt32.toNat.inj (by
        show x.toNat = y.toNat
        omega))
      rw [hxy, ih ys hab hba]

theorem pathLess_irrefl (s : SwaggerMarkdown) (a : pathItem) : pathLess s a a = false := by
  unfold pathLess
  cases mapGet s.CustomOrder a.path with
  | none => exact strLtChars_irrefl _
  | some p => simp

theorem pathLess_trans (s : SwaggerMarkdown) (a b c : pathItem)
    (hab : pathLess s a b = true) (hbc : pathLess s b c = true) : pathLess s a c = true := by
  cases hac : pathLess s a c with
  | true => rfl
  | false =>
    have hcb := pathLess_asymm s b c hbc
    have := pathLess_negtrans s a c b hac hcb
    rw [hab] at this
    cases this

/-- C20: for every order map the comparison of `writePaths` is irreflexive
and transitive, two endpoints are incomparable exactly when both have the
same priority or both have none and the same path, and incomparability is
transitive. -/
theorem pathLess_strict_weak_order (s : SwaggerMarkdown) :
    (∀ a, pathLess s a a = false) ∧
      (∀ a b c, pathLess s a b = true → pathLess s b c = true → pathLess s a c = true) ∧
      (∀ a b, (pathLess s a b = false ∧ pathLess s b a = false) ↔
        ((∃ p, mapGet s.CustomOrder a.path = some p ∧ mapGet s.CustomOrder b.path = some p) ∨
          (mapGet s.CustomOrder a.path = none ∧ mapGet s.CustomOrder b.path = none ∧
            a.path = b.path))) ∧
      (∀ a b c, (pathLess s a b = false ∧ pathLess s b a = false) →
        (pathLess s b c = false ∧ pathLess s c b = false) →
        (pathLess s a c = false ∧ pathLess s c a = false)) := by
  refine ⟨pathLess_irrefl s, pathLess_trans s, fun a b => ?_, fun a b c hab hbc =>
    ⟨pathLess_negtrans s a b c hab.1 hbc.1, pathLess_negtrans s c b a hbc.2 hab.2⟩⟩
  unfold pathLess
  cases ha : mapGet s.CustomOrder a.path <;> cases hb : mapGet s.CustomOrder b.path
  · simp only [strLt, reduceCtorEq, and_false, exists_false, true_and, false_or]
    constructor
    · rintro ⟨h1, h2⟩
      have hdata := strLtChars_eq_of_incomparable _ _ h1 h2
      show (⟨a.path.data⟩ : String) = ⟨b.path.data⟩
      rw [hdata]
    · intro h
      rw [h]
      exact ⟨strLtChars_irrefl _, strLtChars_irrefl _⟩
  · simp
  · simp
  · simp only [decide_eq_false_iff_not, Int.not_lt, Option.some.injEq, reduceCtorEq, false_and,
      and_false, or_false]
    constructor
    · rintro ⟨h1, h2⟩
      exact ⟨_, rfl, by omega⟩
    · rintro ⟨p, h1, h2⟩
      omega

/-- C20, at the order map of the example: `A` is before `C`, `B` before `A`,
and so `B` before `C`. -/
theorem pathLess_strict_weak_order_witness :
    pathLess orderConverter (endpoint "B") (endpoint "C") = true :=
  (pathLess_strict_weak_order orderConverter).2.1 (endpoint "B") (endpoint "A") (endpoint "C")
    (by decide) (by decide)

/-! ## `Generate` and the shape of the paths table -/

theorem flattenEntries_none_of_misshapen (ρ : RangeOrder) (i : Nat) (entries : GoMap JSON)
    (h : ∃ e ∈ entries, ∀ methodMap, e.2 ≠ JSON.obj methodMap) :
    flattenEntries ρ i entries = none := by
  induction entries generalizing i with
  | nil =>
    obtain ⟨e, he, _⟩ := h
    simp at he
  | cons e rest ih =>
    obtain ⟨path, methods⟩ := e
    obtain ⟨e', he', hbad⟩ := h
    cases methods with
    | obj methodMap =>
      rcases List.mem_cons.1 he' with hhead | hrest
      · subst hhead
        exact absurd rfl (hbad methodMap)
      · simp [flattenEntries, ih (i + 1) ⟨e', hrest, hbad⟩]
    | null => rfl
    | bool b => rfl
    | num raw => rfl
    | str v => rfl
    | arr xs => rfl

theorem flattenPaths_none_of_misshapen (ρ : RangeOrder) (hρ : ρ.Valid) (paths : GoMap JSON)
    (h : ∃ e ∈ paths, ∀ methodMap, e.2 ≠ JSON.obj methodMap) : flattenPaths ρ paths = none := by
  obtain ⟨e, he, hbad⟩ := h
  exact flattenEntries_none_of_misshapen ρ 0 _ ⟨e, (ρ.mem_range hρ paths e).2 he, hbad⟩

/-- A document that cannot be decoded makes `Generate` return its error before
the report is opened. -/
theorem Generate_of_decode_error (s : SwaggerMarkdown) (lib : Library) (sys : System)
    (ρ : RangeOrder) (fuel : Nat) (swaggerFilePath markdownFilePath data : String)
    (hRead : sys.readFile swaggerFilePath = some data) (hDecode : sys.unmarshal data = none) :
    Generate s lib sys ρ fuel swaggerFilePath markdownFilePath = .failed := by
  simp [Generate, hRead, hDecode]

/-- C14: when a paths entry of the decoded document is not a map from methods
to operations, `Generate` has already opened the report and written the
header and the title of the endpoint part when the type assertion of
`writePaths` panics, in whatever order the paths are enumerated. -/
theorem Generate_misshapen_paths (s : SwaggerMarkdown) (lib : Library) (sys : System)
    (ρ : RangeOrder) (hρ : ρ.Valid)
    (fuel : Nat) (swaggerFilePath markdownFilePath data : String) (swagger : Swagger)
    (hRead : sys.readFile swaggerFilePath = some data)
    (hDecode : sys.unmarshal data = some swagger)
    (hCreate : sys.create markdownFilePath = true)
    (hShape : ∃ e ∈ swagger.Paths, ∀ methodMap, e.2 ≠ JSON.obj methodMap) :
    Generate s lib sys ρ fuel swaggerFilePath markdownFilePath =
      .ran ⟨[("# " ++ swagger.Info.Title ++ "\n\n**版本**: " ++ swagger.Info.Version ++
          "  \n**描述**: " ++ swagger.Info.Description ++ "\n\n## 接口概览\n"),
        "\n## 接口详情\n"], .panic⟩ := by
  simp [Generate, hRead, hDecode, hCreate, writePaths, writeHeader,
    flattenPaths_none_of_misshapen _ (ρ.valid_sub hρ 0) _ hShape, Run.withValue, Run.seq,
    Run.write, Run.panic]

/-- C14, at the document `{"paths": {"/a": "oops"}}`. -/
theorem Generate_misshapen_paths_witness :
    Generate plainConverter jsonLibrary (exampleSystem misshapenDocument) RangeOrder.listed 3
        "swagger.json" "swagger.md" =
      .ran ⟨[("# " ++ "API" ++ "\n\n**版本**: " ++ "1.0" ++
          "  \n**描述**: " ++ "demo" ++ "\n\n## 接口概览\n"),
        "\n## 接口详情\n"], .panic⟩ :=
  Generate_misshapen_paths plainConverter jsonLibrary (exampleSystem misshapenDocument)
    RangeOrder.listed RangeOrder.valid_listed 3
    "swagger.json" "swagger.md" "" misshapenDocument rfl rfl rfl
    ⟨("/a", .str "oops"), by simp [misshapenDocument], fun _ h => by cases h⟩

/-! ## Inline nested properties -/

/-- C18: the inline property `{"type": "string", "format": "date-time"}` gets
the type `string` in the row written by `writeNestedFields`, while
`getPropertyType` renders the same property, decoded as a `Property`, as
`string (date-time)`. -/
theorem nestedFieldType_drops_format :
    nestedFieldType plainConverter inlineDateProperty = some "string" ∧
      getPropertyType plainConverter (decodeProperty (.obj inlineDateProperty)) =
        some "string (date-time)" ∧
      writeNestedFields plainConverter RangeOrder.listed 1
          [("created", .obj inlineDateProperty)] [] =
        ⟨[fieldTableHeader, fieldTableRule, "| created | `string` |  |\n"], .ok⟩ ∧
      writeFieldRow plainConverter ("created", decodeProperty (.obj inlineDateProperty)) =
        ⟨["| created | `string (date-time)` |  |\n"], .ok⟩ := by
  refine ⟨by decide, by decide, by decide, by decide⟩

/-! ## The order of enumeration of the document's maps -/

theorem flattenEntries_cons_obj (ρ : RangeOrder) (i : Nat) (path : String)
    (methodMap : GoMap JSON) (rest : GoMap JSON) :
    flattenEntries ρ i ((path, JSON.obj methodMap) :: rest) =
      (flattenEntries ρ (i + 1) rest).map fun items =>
        (((ρ.sub i).range methodMap).map fun md => (⟨path, md.1, md.2⟩ : pathItem)) ++
          items := rfl

theorem endpointsOf_cons_obj (path : String) (methodMap : GoMap JSON) (rest : GoMap JSON) :
    endpointsOf ((path, JSON.obj methodMap) :: rest) =
      (methodMap.map fun md => (⟨path, md.1, md.2⟩ : pathItem)) ++ endpointsOf rest := rfl

/-- The endpoints collected from the entries of a paths table are the
endpoints of the table, in some order. -/
theorem flattenEntries_perm (ρ : RangeOrder) (hρ : ρ.Valid) (i : Nat) (entries : GoMap JSON) :
    ∀ items, flattenEntries ρ i entries = some items → items.Perm (endpointsOf entries) := by
  induction entries generalizing i with
  | nil =>
    intro items h
    cases h
    exact List.Perm.refl _
  | cons e rest ih =>
    obtain ⟨path, methods⟩ := e
    intro items h
    cases methods with
    | obj methodMap =>
      rw [flattenEntries_cons_obj] at h
      cases hrest : flattenEntries ρ (i + 1) rest with
      | none => simp [hrest] at h
      | some tl =>
        rw [hrest] at h
        cases h
        rw [endpointsOf_cons_obj]
        exact List.Perm.append
          (List.Perm.map _ ((ρ.sub i).perm_range (ρ.valid_sub hρ i) methodMap))
          (ih (i + 1) tl hrest)
    | null => cases h
    | bool b => cases h
    | num raw => cases h
    | str v => cases h
    | arr xs => cases h

theorem flattenEntries_shape (ρ : RangeOrder) (i : Nat) (entries : GoMap JSON) :
    ∀ items, flattenEntries ρ i entries = some items →
      ∀ e ∈ entries, ∃ methodMap, e.2 = JSON.obj methodMap := by
  induction entries generalizing i with
  | nil =>
    intro items _ e he
    simp at he
  | cons e rest ih =>
    obtain ⟨path, methods⟩ := e
    intro items h e' he'
    cases methods with
    | obj methodMap =>
      rw [flattenEntries_cons_obj] at h
      cases hrest : flattenEntries ρ (i + 1) rest with
      | none => simp [hrest] at h
      | some tl =>
        rcases List.mem_cons.1 he' with hhead | hmem
        · subst hhead
          exact ⟨methodMap, rfl⟩
        · exact ih (i + 1) tl hrest e' hmem
    | null => cases h
    | bool b => cases h
    | num raw => cases h
    | str v => cases h
    | arr xs => cases h

theorem flattenEntries_isSome (ρ : RangeOrder) (i : Nat) (entries : GoMap JSON)
    (h : ∀ e ∈ entries, ∃ methodMap, e.2 = JSON.obj methodMap) :
    ∃ items, flattenEntries ρ i entries = some items := by
  induction entries generalizing i with
  | nil => exact ⟨[], rfl⟩
  | cons e rest ih =>
    obtain ⟨path, methods⟩ := e
    obtain ⟨methodMap, hm⟩ := h (path, methods) (List.mem_cons_self _ _)
    obtain ⟨tl, htl⟩ := ih (i + 1) fun e' he' => h e' (List.mem_cons_of_mem _ he')
    dsimp only at hm
    subst hm
    exact ⟨_, by rw [flattenEntries_cons_obj, htl]; rfl⟩

theorem endpointsOf_perm (l1 l2 : GoMap JSON) (h : l1.Perm l2) :
    (endpointsOf l1).Perm (endpointsOf l2) := by
  unfold endpointsOf
  exact List.Perm.flatten (List.Perm.map _ h)

/-- Two enumerations of the paths of a table and of their methods collect the
same endpoints, in some order. -/
theorem flattenPaths_perm (ρ ρ' : RangeOrder) (hρ : ρ.Valid) (hρ' : ρ'.Valid)
    (paths paths' : GoMap JSON) (hperm : paths.Perm paths') :
    ∀ items, flattenPaths ρ paths = some items →
      ∃ items', flattenPaths ρ' paths' = some items' ∧ items'.Perm items := by
  intro items h
  have hentries : (ρ'.range paths').Perm (ρ.range paths) :=
    ((ρ'.perm_range hρ' paths').trans hperm.symm).trans (ρ.perm_range hρ paths).symm
  obtain ⟨items', h'⟩ := flattenEntries_isSome ρ' 0 (ρ'.range paths') fun e he =>
    flattenEntries_shape ρ 0 _ items h e (hentries.subset he)
  exact ⟨items', h', ((flattenEntries_perm ρ' hρ' 0 _ items' h').trans
    (endpointsOf_perm _ _ hentries)).trans (flattenEntries_perm ρ hρ 0 _ items h).symm⟩

/-- Two enumerations of the same elements are sorted to the same list when no
two different elements tie in the comparison. -/
theorem sortSlice_eq_of_perm {α : Type} (less : α → α → Bool)
    (hasymm : ∀ a b, less a b = true → less b a = false)
    (hneg : ∀ a b c, less a b = false → less b c = false → less a c = false)
    (xs ys : List α) (hperm : ys.Perm xs)
    (htotal : ∀ a ∈ xs, ∀ b ∈ xs, a ≠ b → less a b = true ∨ less b a = true) :
    sortSlice less ys = sortSlice less xs := by
  haveI : IsAntisymm α (fun a b => less a b = true ∨ a = b) :=
    ⟨fun a b h1 h2 => by
      rcases h1 with h1 | h1
      · rcases h2 with h2 | h2
        · rw [hasymm a b h1] at h2
          cases h2
        · exact h2.symm
      · exact h1⟩
  have hsorted : ∀ zs : List α, zs.Perm xs →
      (sortSlice less zs).Pairwise (fun a b => less a b = true ∨ a = b) := by
    intro zs hz
    refine List.Pairwise.imp_of_mem ?_ (sortSlice_pairwise less hasymm hneg zs)
    intro a b ha hb hba
    by_cases hab : a = b
    · exact Or.inr hab
    · have ha' := hz.subset ((sortSlice_perm less zs).subset ha)
      have hb' := hz.subset ((sortSlice_perm less zs).subset hb)
      rcases htotal a ha' b hb' hab with h | h
      · exact Or.inl h
      · rw [hba] at h
        cases h
  exact List.eq_of_perm_of_sorted
    (((sortSlice_perm less ys).trans hperm).trans (sortSlice_perm less xs).symm)
    (hsorted ys hperm) (hsorted xs (List.Perm.refl _))

theorem RangeOrder.valid_reversedCollect : RangeOrder.reversedCollect.Valid := by
  intro path α m
  unfold RangeOrder.reversedCollect
  dsimp only
  split
  · exact List.reverse_perm m
  · exact List.Perm.refl m

theorem RangeOrder.valid_reversedSections : RangeOrder.reversedSections.Valid := by
  intro path α m
  unfold RangeOrder.reversedSections
  dsimp only
  split
  · exact List.reverse_perm m
  · exact List.Perm.refl m

/-- C13 as stated fails: two runs on the same document and configuration give
different reports when a `range` takes another order. With every `range` in
listed order in one run and reversed in the other, the rows `name`, `_app_id`
of a model come in the other order, and so do the two response tables of an
operation; with only the `range` statements that collect the endpoints
reversed, the sections of the two methods of one path come in the other
order; and within one run the rows of a model can come in one order (`a`,
`b`) and its nested structures in the other (`b`, `a`). -/
theorem writePaths_enumeration_counterexample :
    RangeOrder.listed.Valid ∧ RangeOrder.reversed.Valid ∧ RangeOrder.reversedCollect.Valid ∧
      RangeOrder.reversedSections.Valid ∧
      writePaths plainConverter jsonLibrary RangeOrder.listed 3
          [("/api/user/register", .obj [("post", registerDetail)])]
          [("UserRegister", userRegister)] ≠
        writePaths plainConverter jsonLibrary RangeOrder.reversed 3
          [("/api/user/register", .obj [("post", registerDetail)])]
          [("UserRegister", userRegister)] ∧
      writePaths plainConverter jsonLibrary RangeOrder.listed 3
          [("/a", .obj [("get", twoResponsesDetail)])] [("B", modelB), ("C", modelC)] ≠
        writePaths plainConverter jsonLibrary RangeOrder.reversed 3
          [("/a", .obj [("get", twoResponsesDetail)])] [("B", modelB), ("C", modelC)] ∧
      writePaths plainConverter jsonLibrary RangeOrder.listed 3 twoMethods
          [("UserRegister", userRegister)] ≠
        writePaths plainConverter jsonLibrary RangeOrder.reversedCollect 3 twoMethods
          [("UserRegister", userRegister)] ∧
      writeDefinitionFields plainConverter RangeOrder.reversedSections 2 modelTwoRefs
          [("B", modelB), ("C", modelC)] =
        ⟨[fieldTableHeader, fieldTableRule, "| a | `B` |  |\n", "| b | `C` |  |\n", "\n",
          "**b 结构详情**:\n\n", fieldTableHeader, fieldTableRule, "| z | `string` |  |\n", "\n",
          "**a 结构详情**:\n\n", fieldTableHeader, fieldTableRule, "| x | `int` |  |\n", "\n"],
          .ok⟩ :=
  ⟨RangeOrder.valid_listed, RangeOrder.valid_reversed, RangeOrder.valid_reversedCollect,
    RangeOrder.valid_reversedSections, by decide, by decide, by decide, by decide⟩

/-- C13, amended: the report does not depend on the order in which the paths
of the document are enumerated (nor on the order taken by any other `range`
executed while the endpoints are collected) when no two different endpoints
tie in the comparison of `writePaths` (they have different priorities, or
only one has a priority, or none has and the paths differ): two runs that
take the same orders while the sections are rendered write the same
report. -/
theorem writePaths_paths_order (s : SwaggerMarkdown) (lib : Library) (ρ ρ' : RangeOrder)
    (fuel : Nat) (paths paths' : GoMap JSON) (defs : GoMap Definition)
    (hρ : ρ.Valid) (hρ' : ρ'.Valid) (hrender : ρ'.sub 1 = ρ.sub 1)
    (hperm : paths.Perm paths')
    (hties : ∀ a ∈ endpointsOf paths, ∀ b ∈ endpointsOf paths, a ≠ b →
      pathLess s a b = true ∨ pathLess s b a = true) :
    writePaths s lib ρ' fuel paths' defs = writePaths s lib ρ fuel paths defs := by
  cases hflat : flattenPaths (ρ.sub 0) paths with
  | none =>
    have hflat' : flattenPaths (ρ'.sub 0) paths' = none := by
      cases h' : flattenPaths (ρ'.sub 0) paths' with
      | none => rfl
      | some items' =>
        obtain ⟨items, h, _⟩ := flattenPaths_perm (ρ'.sub 0) (ρ.sub 0) (ρ'.valid_sub hρ' 0)
          (ρ.valid_sub hρ 0) paths' paths hperm.symm items' h'
        rw [hflat] at h
        cases h
    simp only [writePaths, hflat, hflat', Run.withValue]
  | some items =>
    obtain ⟨items', hflat', hp⟩ := flattenPaths_perm (ρ.sub 0) (ρ'.sub 0) (ρ.valid_sub hρ 0)
      (ρ'.valid_sub hρ' 0) paths paths' hperm items hflat
    have hmem : ∀ a ∈ items, a ∈ endpointsOf paths := fun a ha =>
      ((flattenEntries_perm (ρ.sub 0) (ρ.valid_sub hρ 0) 0 _ items hflat).trans
        (endpointsOf_perm _ _ ((ρ.sub 0).perm_range (ρ.valid_sub hρ 0) paths))).subset ha
    have hsort := sortSlice_eq_of_perm (pathLess s) (pathLess_asymm s) (pathLess_negtrans s)
      items items' hp fun a ha b hb => hties a (hmem a ha) b (hmem b hb)
    simp only [writePaths, hflat, hflat', Run.withValue, hsort, hrender]

/-- C13 amended, at the paths `/a` and `/b`, listed and collected in two
orders. -/
theorem writePaths_paths_order_witness :
    writePaths plainConverter jsonLibrary RangeOrder.reversedCollect 3 twoPathsSwapped
        [("UserRegister", userRegister)] =
      writePaths plainConverter jsonLibrary RangeOrder.listed 3 twoPaths
        [("UserRegister", userRegister)] :=
  writePaths_paths_order plainConverter jsonLibrary RangeOrder.listed
    RangeOrder.reversedCollect 3 twoPaths twoPathsSwapped [("UserRegister", userRegister)]
    RangeOrder.valid_listed RangeOrder.valid_reversedCollect rfl (List.Perm.swap _ _ _)
    (by
      intro a ha b hb hne
      have hends : endpointsOf twoPaths =
          [⟨"/a", "get", registerDetail⟩, ⟨"/b", "get", registerDetail⟩] := rfl
      rw [hends] at ha hb
      simp only [List.mem_cons, List.mem_singleton, List.not_mem_nil, or_false] at ha hb
      rcases ha with rfl | rfl <;> rcases hb with rfl | rfl
      · exact absurd rfl hne
      · exact Or.inl (by decide)
      · exact Or.inr (by decide)
      · exact absurd rfl hne)

/-! ## One section for each endpoint -/

theorem Run.forEachFrom_out_of_ok {α : Type} (body : Nat → α → Run) (i : Nat) (xs : List α)
    (h : ∀ j, ∀ x ∈ xs, (body j x).status = .ok) :
    Run.forEachFrom body i xs =
      ⟨((xs.enumFrom i).map fun p => (body p.1 p.2).out).flatten, .ok⟩ := by
  induction xs generalizing i with
  | nil => rfl
  | cons x xs ih =>
    rw [Run.forEachFrom, Run.seq_of_ok _ _ (h i x (List.mem_cons_self _ _)),
      ih (i + 1) fun j y hy => h j y (List.mem_cons_of_mem _ hy)]
    simp [List.enumFrom]

theorem Run.seq_status_ok (a b : Run) (h : (Run.seq a b).status = .ok) :
    a.status = .ok ∧ b.status = .ok := by
  cases a with
  | mk ao st =>
    cases st with
    | ok => exact ⟨rfl, by simpa [Run.seq] using h⟩
    | panic => simp [Run.seq] at h
    | outOfFuel => simp [Run.seq] at h

theorem Run.seq_regroup (a b c d e f g : Run) :
    Run.seq a (Run.seq b (Run.seq c (Run.seq d (Run.seq e (Run.seq f g))))) =
      Run.seq (Run.seq a (Run.seq b (Run.seq c (Run.seq d (Run.seq e f))))) g := by
  simp only [Run.seq_assoc]

/-- The section of an endpoint is what comes before the separator, followed by
the one write of the separator. -/
theorem writeOperation_separator (s : SwaggerMarkdown) (lib : Library) (ρ : RangeOrder)
    (fuel : Nat) (defs : GoMap Definition) (item : pathItem)
    (hok : (writeOperation s lib ρ fuel defs item).status = .ok) :
    ∃ body : Run, body.status = .ok ∧
      (writeOperation s lib ρ fuel defs item).out = body.out ++ ["\n---\n"] := by
  obtain ⟨body, hbody⟩ : ∃ body : Run,
      writeOperation s lib ρ fuel defs item = Run.seq body (Run.write "\n---\n") := by
    simp only [writeOperation]
    exact ⟨_, Run.seq_regroup _ _ _ _ _ _ _⟩
  rw [hbody] at hok ⊢
  have hb := (Run.seq_status_ok _ _ hok).1
  exact ⟨body, hb, by rw [Run.seq_of_ok _ _ hb]; rfl⟩

theorem endpointsOf_pairs (paths : GoMap JSON) :
    (endpointsOf paths).map (fun item => (item.path, item.method)) = pathMethodPairs paths := by
  induction paths with
  | nil => rfl
  | cons e rest ih =>
    obtain ⟨path, methods⟩ := e
    cases methods with
    | obj methodMap =>
      rw [endpointsOf_cons_obj]
      simp only [pathMethodPairs, List.map_cons, List.flatten_cons, List.map_append,
        List.map_map] at ih ⊢
      rw [ih]
      rfl
    | null => exact ih
    | bool b => exact ih
    | num raw => exact ih
    | str v => exact ih
    | arr xs => exact ih

/-- The endpoints collected by `writePaths` are the (path, method) pairs of
the paths table, in some order. -/
theorem flattenPaths_pairs (ρ : RangeOrder) (hρ : ρ.Valid) (paths : GoMap JSON) :
    ∀ items, flattenPaths ρ paths = some items →
      (items.map (fun item => (item.path, item.method))).Perm (pathMethodPairs paths) := by
  intro items h
  rw [← endpointsOf_pairs]
  exact List.Perm.map _ ((flattenEntries_perm ρ hρ 0 _ items h).trans
    (endpointsOf_perm _ _ (ρ.perm_range hρ paths)))

/-- When every entry of the paths table is a map from methods to operations
and the section of every endpoint is written to its end, the endpoints
rendered by `writePaths` are a permutation of the (path, method) pairs of the
table, and the report is the title followed by one section for each of them,
in sorted order, each ending with the one separator written after it. -/
theorem writePaths_sections_of_ok (s : SwaggerMarkdown) (lib : Library) (ρ : RangeOrder)
    (hρ : ρ.Valid) (fuel : Nat)
    (paths : GoMap JSON) (defs : GoMap Definition) (items : List pathItem)
    (hflat : flattenPaths (ρ.sub 0) paths = some items)
    (hok : ∀ n, ∀ item ∈ items,
      (writeOperation s lib ((ρ.sub 1).sub n) fuel defs item).status = .ok) :
    (items.map (fun item => (item.path, item.method))).Perm (pathMethodPairs paths) ∧
      (sortSlice (pathLess s) items).Perm items ∧
      writePaths s lib ρ fuel paths defs =
        ⟨"\n## 接口详情\n" ::
          (((sortSlice (pathLess s) items).enumFrom 0).map fun p =>
            (writeOperation s lib ((ρ.sub 1).sub p.1) fuel defs p.2).out).flatten, .ok⟩ ∧
      ∀ n, ∀ item ∈ items, ∃ body : Run, body.status = .ok ∧
        (writeOperation s lib ((ρ.sub 1).sub n) fuel defs item).out =
          body.out ++ ["\n---\n"] := by
  refine ⟨flattenPaths_pairs _ (ρ.valid_sub hρ 0) paths items hflat, sortSlice_perm _ _, ?_,
    fun n item hi => writeOperation_separator s lib _ fuel defs item (hok n item hi)⟩
  have hsorted : ∀ n, ∀ item ∈ sortSlice (pathLess s) items,
      (writeOperation s lib ((ρ.sub 1).sub n) fuel defs item).status = .ok :=
    fun n item hi => hok n item ((sortSlice_perm _ _).subset hi)
  simp only [writePaths, hflat, Run.withValue,
    Run.forEachFrom_out_of_ok
      (fun n item => writeOperation s lib ((ρ.sub 1).sub n) fuel defs item) 0 _ hsorted,
    Run.write_seq]

/-- C19: with the two endpoints `/a` and `/b`, whose response model has an
inline field with a number as its type (`{"n": {"type": 5}}`), the unchecked
assertion `t.(string)` of `writeNestedFields` panics inside the first
section: no separator is written and `/b` gets no section, in either order of
enumeration. -/
theorem writePaths_sections_panic :
    flattenPaths (RangeOrder.listed.sub 0) twoPathsBad =
        some [⟨"/a", "get", badDetail⟩, ⟨"/b", "get", badDetail⟩] ∧
      pathMethodPairs twoPathsBad = [("/a", "get"), ("/b", "get")] ∧
      writePaths plainConverter jsonLibrary RangeOrder.listed 4 twoPathsBad
          [("M", modelBadInline)] =
        ⟨["\n## 接口详情\n", "### op\n\n", "**接口地址**：`/a`  \n", "**请求方式**：`GET`  \n",
          "\n**响应体结构**:\n\n", fieldTableHeader, fieldTableRule,
          "| data | `object` |  |\n", "\n", "**data 结构详情**:\n\n",
          fieldTableHeader, fieldTableRule], .panic⟩ ∧
      (writePaths plainConverter jsonLibrary RangeOrder.listed 4 twoPathsBad
        [("M", modelBadInline)]).out.count "\n---\n" = 0 ∧
      "**接口地址**：`/b`  \n" ∉
        (writePaths plainConverter jsonLibrary RangeOrder.listed 4 twoPathsBad
          [("M", modelBadInline)]).out ∧
      (writePaths plainConverter jsonLibrary RangeOrder.reversed 4 twoPathsBad
        [("M", modelBadInline)]).status = .panic ∧
      (writePaths plainConverter jsonLibrary RangeOrder.reversed 4 twoPathsBad
        [("M", modelBadInline)]).out.count "\n---\n" = 0 ∧
      nestedFieldType plainConverter [("type", .num "5")] = none :=
  ⟨rfl, by decide, by decide, by decide, by decide, by decide, by decide, by decide⟩

end Godoc
